import Mathlib

/-!
Shallow embedding of nearcore's test runtime `chain/chain/src/test_utils/kv_runtime.rs`:
the `MockEpochManager` epoch/valset derivation and the `KeyValueRuntime` chunk
application over a content-addressed snapshot table.

Modelling conventions:

* `CryptoHash`, `AccountId`, `EpochId`, `Balance` and `Nonce` are all modelled as `Nat`;
  the number `0` stands for `CryptoHash::default()` (the genesis sentinel).
* The five epoch-memoization `HashMap`s of `MockEpochManager` are modelled as functions
  `Nat → Option _`; `HashMap::insert` becomes the pointwise update `upd`.
* External collaborators that `kv_runtime.rs` calls but does not define
  (`account_id_to_shard_id` via the v0 `ShardLayout`, `CryptoHash::hash_borsh`,
  `Receipt::get_hash`) are abstract function parameters, bundled in `Ext`.
* Rust panics (`unwrap` on `None`, `assert!`, `unreachable!`, index out of bounds)
  are modelled as dedicated error results; recoverable `EpochError` values are
  modelled separately, mirroring which failures the Rust code returns versus aborts on.
-/

namespace KVR

/-- Pointwise update of a map; models `HashMap::insert`. -/
def upd {α : Type} (m : Nat → Option α) (k : Nat) (v : α) : Nat → Option α :=
  fun x => if x = k then some v else m x

@[simp] theorem upd_self {α : Type} (m : Nat → Option α) (k : Nat) (v : α) :
    upd m k v k = some v := by
  simp [upd]

theorem upd_ne {α : Type} (m : Nat → Option α) (k : Nat) (v : α) (x : Nat) (h : x ≠ k) :
    upd m k v x = m x := by
  simp [upd, h]

theorem upd_upd {α : Type} (m : Nat → Option α) (k : Nat) (v1 v2 : α) :
    upd (upd m k v1) k v2 = upd m k v2 := by
  funext z
  by_cases hz : z = k <;> simp [upd, hz]

/-- Re-running the two valset inserts of `get_epoch_and_valset` is a no-op. -/
theorem upd_upd_idem2 {α : Type} (m : Nat → Option α) (a b : Nat) (x y : α) :
    upd (upd (upd (upd m a x) b y) a x) b y = upd (upd m a x) b y := by
  funext z
  by_cases hb : z = b <;> by_cases ha : z = a <;> simp [upd, ha, hb]

/-- Block header fields read by `MockEpochManager::get_epoch_and_valset`:
`prev_hash()`, `height()`, `last_final_block()`. -/
structure Header where
  prevHash : Nat
  height : Nat
  lastFinal : Nat
deriving DecidableEq

/-- The five memoization tables of `MockEpochManager` (each behind its own `RwLock`
in Rust): `hash_to_epoch`, `hash_to_next_epoch_approvals_req`, `hash_to_next_epoch`,
`hash_to_valset` (keyed by epoch id) and `epoch_start`. -/
structure EMState where
  hashToEpoch : Nat → Option Nat
  hashToNextEpochApprovalsReq : Nat → Option Bool
  hashToNextEpoch : Nat → Option Nat
  hashToValset : Nat → Option Nat
  epochStart : Nat → Option Nat

/-- Initial tables built by `MockEpochManager::new_with_validators`:
`hash_to_next_epoch = {0 ↦ EpochId(0)}`, `epoch_start = {0 ↦ 0}`,
`hash_to_valset = {EpochId(0) ↦ 0}`, the other two empty. -/
def mkInitialEMState : EMState :=
  { hashToEpoch := fun _ => none
    hashToNextEpochApprovalsReq := fun _ => none
    hashToNextEpoch := upd (fun _ => none) 0 0
    hashToValset := upd (fun _ => none) 0 0
    epochStart := upd (fun _ => none) 0 0 }

/-- Result of `get_epoch_and_valset`: `ok` carries the returned epoch id, the raw
(unreduced) valset counter, the returned next epoch id and the updated tables;
`missingBlock` models `Err(EpochError::MissingBlock)`; `panic` models any
`unwrap` failure inside the function (the caller broke the
ancestor-before-descendant precondition). -/
inductive EVResult
  | ok (epoch valsetRaw next : Nat) (s : EMState)
  | missingBlock (h : Nat)
  | panic

def EVResult.epochOf : EVResult → Option Nat
  | .ok e _ _ _ => some e
  | _ => none

def EVResult.valsetOf : EVResult → Option Nat
  | .ok _ v _ _ => some v
  | _ => none

def EVResult.nextOf : EVResult → Option Nat
  | .ok _ _ n _ => some n
  | _ => none

def EVResult.stateOf : EVResult → Option EMState
  | .ok _ _ _ s => some s
  | _ => none

/-- Height of the header's last final block: `0` when it is the sentinel, else the
height of that block's header; `none` models the `unwrap` panic on a missing header. -/
def lastFinalHeight (H : Nat → Option Header) (hdr : Header) : Option Nat :=
  if hdr.lastFinal = 0 then some 0
  else match H hdr.lastFinal with
    | none => none
    | some h2 => some h2.height

/-- The `prev_valset` read: `some none` when the ancestor has no memoized epoch,
`some (some pv)` when it has one with memoized valset `pv`, and `none` for the
`unwrap` panic when the memoized epoch has no valset entry. -/
def prevValsetOf (s : EMState) (pph : Nat) : Option (Option Nat) :=
  match s.hashToEpoch pph with
  | none => some none
  | some pe =>
    match s.hashToValset pe with
    | none => none
    | some pv => some (some pv)

/-- The six inserts performed at the end of `get_epoch_and_valset`, in source order:
`hash_to_next_epoch[ph] := nxt`, `hash_to_epoch[ph] := epoch`,
`hash_to_next_epoch_approvals_req[ph] := needs`, `hash_to_valset[epoch] := v`,
`hash_to_valset[nxt] := v + 1`, `epoch_start[ph] := es`. -/
def mkPost (s : EMState) (ph epoch v nxt es : Nat) (needs : Bool) : EMState :=
  { hashToEpoch := upd s.hashToEpoch ph epoch
    hashToNextEpochApprovalsReq := upd s.hashToNextEpochApprovalsReq ph needs
    hashToNextEpoch := upd s.hashToNextEpoch ph nxt
    hashToValset := upd (upd s.hashToValset epoch v) nxt (v + 1)
    epochStart := upd s.epochStart ph es }

/-- The branch of `get_epoch_and_valset` after all lookups succeeded: decide
`increment_epoch` and `needs_next_epoch_approvals`, pick the new assignment, and
persist it. `pvOpt` is the ancestor's valset (if its epoch is memoized), `pes` the
ancestor's epoch start, `lfh` the last final height. -/
def coreStep (eL : Nat) (s : EMState) (ph : Nat) (hdr : Header) (pne : Nat)
    (pvOpt : Option Nat) (pes lfh : Nat) : EVResult :=
  let inc : Bool := decide (hdr.prevHash = 0) || decide (pes + eL ≤ lfh + 3)
  let needs : Bool := !inc && decide (lfh + 3 < pes + eL) && decide (pes + eL ≤ hdr.height + 3)
  if inc then
    let v := match pvOpt with | none => 0 | some pv => pv + 1
    .ok pne v ph (mkPost s ph pne v ph (hdr.height + 1) needs)
  else
    match s.hashToEpoch hdr.prevHash, pvOpt with
    | some pe, some pv => .ok pe pv pne (mkPost s ph pe pv pne pes needs)
    | _, _ => .panic

/-- `MockEpochManager::get_epoch_and_valset`, with the raw (unreduced) valset counter
in the result. `eL` is `epoch_length`, `H` the immutable header store, `ph` the
queried `prev_hash`. -/
def getEpochAndValsetCore (eL : Nat) (H : Nat → Option Header) (s : EMState)
    (ph : Nat) : EVResult :=
  if ph = 0 then .ok 0 0 0 s
  else match H ph with
    | none => .missingBlock ph
    | some hdr =>
      match s.hashToNextEpoch hdr.prevHash with
      | none => .panic
      | some pne =>
        match prevValsetOf s hdr.prevHash with
        | none => .panic
        | some pvOpt =>
          match s.epochStart hdr.prevHash with
          | none => .panic
          | some pes =>
            match lastFinalHeight H hdr with
            | none => .panic
            | some lfh => coreStep eL s ph hdr pne pvOpt pes lfh

/-- The surface of `get_epoch_and_valset`: the returned valset index is the raw
counter reduced modulo `validators_by_valset.len()` (`nV`). -/
def getEpochAndValset (eL nV : Nat) (H : Nat → Option Header) (s : EMState)
    (ph : Nat) : EVResult :=
  match getEpochAndValsetCore eL H s ph with
  | .ok e v n s2 => .ok e (v % nV) n s2
  | r => r

/-- The `increment_epoch` condition of `get_epoch_and_valset`, recomputed from the
same lookups: `prev_prev_hash == default || last_final_height + 3 >= epoch_start +
epoch_length`. `none` when a lookup the Rust code would have panicked on (or the
genesis short-circuit) makes the condition undefined. -/
def incCondition (eL : Nat) (H : Nat → Option Header) (s : EMState) (ph : Nat) :
    Option Bool :=
  if ph = 0 then none
  else match H ph with
    | none => none
    | some hdr =>
      match s.epochStart hdr.prevHash with
      | none => none
      | some pes =>
        match lastFinalHeight H hdr with
        | none => none
        | some lfh => some (decide (hdr.prevHash = 0) || decide (pes + eL ≤ lfh + 3))

theorem valsetOf_inv {r : EVResult} {v : Nat} (h : r.valsetOf = some v) :
    ∃ e n s2, r = .ok e v n s2 := by
  cases r with
  | ok e v2 n s2 =>
    simp only [EVResult.valsetOf, Option.some.injEq] at h
    exact ⟨e, n, s2, by rw [h]⟩
  | missingBlock h2 => simp [EVResult.valsetOf] at h
  | panic => simp [EVResult.valsetOf] at h

theorem core_ok_inv {eL : Nat} {H : Nat → Option Header} {s : EMState}
    {ph e v n : Nat} {s2 : EMState} (hph : ph ≠ 0)
    (h : getEpochAndValsetCore eL H s ph = .ok e v n s2) :
    ∃ hdr pne pvOpt pes lfh,
      H ph = some hdr ∧ s.hashToNextEpoch hdr.prevHash = some pne ∧
      prevValsetOf s hdr.prevHash = some pvOpt ∧
      s.epochStart hdr.prevHash = some pes ∧
      lastFinalHeight H hdr = some lfh ∧
      coreStep eL s ph hdr pne pvOpt pes lfh = .ok e v n s2 := by
  unfold getEpochAndValsetCore at h
  rw [if_neg hph] at h
  split at h
  · simp at h
  · rename_i hdr hH
    split at h
    · simp at h
    · rename_i pne hpne
      split at h
      · simp at h
      · rename_i pvOpt hpv
        split at h
        · simp at h
        · rename_i pes hpes
          split at h
          · simp at h
          · rename_i lfh hlfh
            exact ⟨hdr, pne, pvOpt, pes, lfh, hH, hpne, hpv, hpes, hlfh, h⟩

theorem incCondition_eq {eL : Nat} {H : Nat → Option Header} {s : EMState}
    {ph : Nat} {hdr : Header} {pes lfh : Nat}
    (hph : ph ≠ 0) (hH : H ph = some hdr)
    (hpes : s.epochStart hdr.prevHash = some pes)
    (hlfh : lastFinalHeight H hdr = some lfh) :
    incCondition eL H s ph =
      some (decide (hdr.prevHash = 0) || decide (pes + eL ≤ lfh + 3)) := by
  unfold incCondition
  rw [if_neg hph]
  simp only [hH, hpes, hlfh]

/-- c6: along any chain queried ancestor-before-descendant, the valset counter
derived by `get_epoch_and_valset` never decreases from the ancestor's memoized
valset `pv`, it is exactly `pv + 1` when `increment_epoch` holds, and it is
exactly `pv` when `increment_epoch` does not hold. -/
theorem c6_valset_monotone (eL : Nat) (H : Nat → Option Header) (s : EMState)
    (ph : Nat) (hdr : Header) (pe pv v : Nat)
    (hph : ph ≠ 0) (hH : H ph = some hdr)
    (hpe : s.hashToEpoch hdr.prevHash = some pe)
    (hpv : s.hashToValset pe = some pv)
    (hv : (getEpochAndValsetCore eL H s ph).valsetOf = some v) :
    pv ≤ v ∧ (incCondition eL H s ph = some true → v = pv + 1) ∧
      (incCondition eL H s ph = some false → v = pv) := by
  obtain ⟨e, n, s2, hr⟩ := valsetOf_inv hv
  obtain ⟨hdr2, pne, pvOpt, pes, lfh, hH2, hpne, hpvo, hpes, hlfh, hstep⟩ :=
    core_ok_inv hph hr
  rw [hH] at hH2
  injection hH2 with hh
  subst hh
  have hpvo2 : pvOpt = some pv := by
    unfold prevValsetOf at hpvo
    simp only [hpe, hpv] at hpvo
    exact (Option.some.inj hpvo).symm
  subst hpvo2
  have hic := @incCondition_eq eL _ _ _ _ _ _ hph hH hpes hlfh
  by_cases hinc : (decide (hdr.prevHash = 0) || decide (pes + eL ≤ lfh + 3)) = true
  · simp only [coreStep, hinc, if_true, EVResult.ok.injEq] at hstep
    obtain ⟨-, hv2, -, -⟩ := hstep
    refine ⟨by omega, fun _ => hv2.symm, fun hf => ?_⟩
    rw [hic] at hf
    simp [hinc] at hf
  · have hincf : (decide (hdr.prevHash = 0) || decide (pes + eL ≤ lfh + 3)) = false :=
      Bool.not_eq_true _ ▸ (by simpa using hinc)
    simp only [coreStep, hincf, Bool.false_eq_true, if_false, hpe] at hstep
    simp only [EVResult.ok.injEq] at hstep
    obtain ⟨-, hv2, -, -⟩ := hstep
    refine ⟨by omega, fun ht => ?_, fun _ => hv2.symm⟩
    rw [hic] at ht
    simp [hincf] at ht

/-- c1 amended: on a non-genesis query where `increment_epoch` holds, the returned
epoch id is the ancestor's memoized next-epoch id, the returned next epoch id is
`EpochId(prev_hash)`, the raw valset counter is the ancestor's valset plus one (or 0
if the ancestor had none), the recorded epoch start is the header's height plus one,
and the surface function returns the counter reduced modulo the schedule length. -/
theorem c1_increment_assignment (eL nV : Nat) (H : Nat → Option Header) (s : EMState)
    (ph : Nat) (hdr : Header) (e v n : Nat)
    (hph : ph ≠ 0) (hH : H ph = some hdr)
    (hinc : incCondition eL H s ph = some true)
    (he : (getEpochAndValsetCore eL H s ph).epochOf = some e)
    (hv : (getEpochAndValsetCore eL H s ph).valsetOf = some v)
    (hn : (getEpochAndValsetCore eL H s ph).nextOf = some n) :
    s.hashToNextEpoch hdr.prevHash = some e ∧
    n = ph ∧
    (s.hashToEpoch hdr.prevHash = none → v = 0) ∧
    (∀ pe pv, s.hashToEpoch hdr.prevHash = some pe →
        s.hashToValset pe = some pv → v = pv + 1) ∧
    (∀ s2, (getEpochAndValsetCore eL H s ph).stateOf = some s2 →
        s2.epochStart ph = some (hdr.height + 1)) ∧
    (getEpochAndValset eL nV H s ph).valsetOf = some (v % nV) := by
  obtain ⟨e2, n2, s2, hr⟩ := valsetOf_inv hv
  rw [hr] at he hn
  simp only [EVResult.epochOf, EVResult.nextOf, Option.some.injEq] at he hn
  subst he
  subst hn
  obtain ⟨hdr2, pne, pvOpt, pes, lfh, hH2, hpne, hpvo, hpes, hlfh, hstep⟩ :=
    core_ok_inv hph hr
  rw [hH] at hH2
  injection hH2 with hh
  subst hh
  have hic := @incCondition_eq eL _ _ _ _ _ _ hph hH hpes hlfh
  rw [hic] at hinc
  have hb := Option.some.inj hinc
  simp only [coreStep, hb, if_true, EVResult.ok.injEq] at hstep
  obtain ⟨hee, hvv, hnn, hss⟩ := hstep
  subst hee
  subst hnn
  refine ⟨hpne, rfl, ?_, ?_, ?_, ?_⟩
  · intro hnone
    unfold prevValsetOf at hpvo
    rw [hnone] at hpvo
    have : pvOpt = none := (Option.some.inj hpvo).symm
    subst this
    simpa using hvv.symm
  · intro pe pv hpe hpv
    unfold prevValsetOf at hpvo
    simp only [hpe, hpv] at hpvo
    have : pvOpt = some pv := (Option.some.inj hpvo).symm
    subst this
    simpa using hvv.symm
  · intro s3 hs3
    rw [hr] at hs3
    simp only [EVResult.stateOf, Option.some.injEq] at hs3
    subst hs3
    rw [← hss]
    simp [mkPost]
  · unfold getEpochAndValset
    rw [hr]
    simp [EVResult.valsetOf]

/-- Header store holding the single non-genesis block of hash 1, height 1,
built on genesis. -/
def oneBlockH : Nat → Option Header :=
  fun h => if h = 1 then some ⟨0, 1, 0⟩ else none

/-- c1 counterexample: at `prev_hash = 1` (a block on top of genesis, so
`increment_epoch` holds), the code returns epoch id `0` (the ancestor's memoized
next-epoch slot) and next epoch id `1 = EpochId(prev_hash)`, while the claim
predicts returned epoch id `EpochId(prev_hash) = 1` and returned next epoch id
`0` (the ancestor's memoized next-epoch id). -/
theorem c1_counterexample :
    incCondition 5 oneBlockH mkInitialEMState 1 = some true ∧
    (getEpochAndValsetCore 5 oneBlockH mkInitialEMState 1).epochOf = some 0 ∧
    (getEpochAndValsetCore 5 oneBlockH mkInitialEMState 1).nextOf = some 1 ∧
    mkInitialEMState.hashToNextEpoch 0 = some 0 ∧
    (0 : Nat) ≠ 1 := by
  refine ⟨by decide, by decide, by decide, by decide, by decide⟩

theorem mkPost_idem (s : EMState) (ph ep vv nx es : Nat) (nd : Bool) :
    mkPost (mkPost s ph ep vv nx es nd) ph ep vv nx es nd =
      mkPost s ph ep vv nx es nd := by
  unfold mkPost
  simp only [EMState.mk.injEq, upd_upd, upd_upd_idem2]

@[simp] theorem mkPost_hashToEpoch (s : EMState) (ph ep vv nx es : Nat) (nd : Bool) :
    (mkPost s ph ep vv nx es nd).hashToEpoch = upd s.hashToEpoch ph ep := rfl

@[simp] theorem mkPost_hashToNextEpoch (s : EMState) (ph ep vv nx es : Nat) (nd : Bool) :
    (mkPost s ph ep vv nx es nd).hashToNextEpoch = upd s.hashToNextEpoch ph nx := rfl

@[simp] theorem mkPost_hashToValset (s : EMState) (ph ep vv nx es : Nat) (nd : Bool) :
    (mkPost s ph ep vv nx es nd).hashToValset =
      upd (upd s.hashToValset ep vv) nx (vv + 1) := rfl

@[simp] theorem mkPost_epochStart (s : EMState) (ph ep vv nx es : Nat) (nd : Bool) :
    (mkPost s ph ep vv nx es nd).epochStart = upd s.epochStart ph es := rfl

/-- Forward computation: once all five lookups of `get_epoch_and_valset` are known,
the call reduces to `coreStep`. -/
theorem core_second (eL : Nat) (H : Nat → Option Header) (s : EMState) (ph : Nat)
    (hdr : Header) (pne : Nat) (pvOpt : Option Nat) (pes lfh : Nat)
    (hph : ph ≠ 0) (hH : H ph = some hdr)
    (hpne2 : s.hashToNextEpoch hdr.prevHash = some pne)
    (hpvo2 : prevValsetOf s hdr.prevHash = some pvOpt)
    (hpes2 : s.epochStart hdr.prevHash = some pes)
    (hlfh2 : lastFinalHeight H hdr = some lfh) :
    getEpochAndValsetCore eL H s ph = coreStep eL s ph hdr pne pvOpt pes lfh := by
  unfold getEpochAndValsetCore
  rw [if_neg hph]
  simp only [hH, hpne2, hpvo2, hpes2, hlfh2]

/-- c7: once the epoch assignment for `prev_hash` is memoized by a successful call,
calling `get_epoch_and_valset` again on the same `prev_hash` (same header store)
returns the same epoch id, raw valset counter and next epoch id, and leaves every
memoization table exactly as it was. The distinctness hypotheses say the ancestor's
memoized epoch id is neither `prev_hash` itself nor the ancestor's next-epoch id,
which holds on any real chain processed ancestor-before-descendant. -/
theorem c7_memo_idempotent (eL : Nat) (H : Nat → Option Header) (s s2 : EMState)
    (ph e v n : Nat) (hdr : Header)
    (hH : H ph = some hdr)
    (h1 : getEpochAndValsetCore eL H s ph = .ok e v n s2)
    (hne : hdr.prevHash ≠ ph)
    (hd1 : ∀ pe, s.hashToEpoch hdr.prevHash = some pe → pe ≠ ph)
    (hd2 : ∀ pe pne, s.hashToEpoch hdr.prevHash = some pe →
        s.hashToNextEpoch hdr.prevHash = some pne → pe ≠ pne) :
    getEpochAndValsetCore eL H s2 ph = .ok e v n s2 := by
  by_cases hph : ph = 0
  · subst hph
    have hg : getEpochAndValsetCore eL H s 0 = .ok 0 0 0 s := rfl
    rw [hg] at h1
    injection h1 with i1 i2 i3 i4
    subst i4
    rw [hg, ← i1, ← i2, ← i3]
  · obtain ⟨hdr2, pne, pvOpt, pes, lfh, hH2, hpne, hpvo, hpes, hlfh, hstep⟩ :=
      core_ok_inv hph h1
    rw [hH] at hH2
    injection hH2 with hh
    subst hh
    by_cases hinc : (decide (hdr.prevHash = 0) || decide (pes + eL ≤ lfh + 3)) = true
    · -- increment branch: the first call stored epoch pne and next ph
      simp only [coreStep, hinc, if_true, EVResult.ok.injEq] at hstep
      obtain ⟨hee, hvv, hnn, hss⟩ := hstep
      subst hee
      subst hnn
      rw [hvv] at hss
      have hpneS : s2.hashToNextEpoch hdr.prevHash = some pne := by
        rw [← hss]
        simp only [mkPost_hashToNextEpoch]
        rw [upd_ne _ _ _ _ hne]
        exact hpne
      have hpvoS : prevValsetOf s2 hdr.prevHash = some pvOpt := by
        have hhe : s2.hashToEpoch hdr.prevHash = s.hashToEpoch hdr.prevHash := by
          rw [← hss]
          simp only [mkPost_hashToEpoch]
          exact upd_ne _ _ _ _ hne
        unfold prevValsetOf at hpvo ⊢
        rw [hhe]
        cases hpe : s.hashToEpoch hdr.prevHash with
        | none =>
          rw [hpe] at hpvo
          exact hpvo
        | some pe =>
          rw [hpe] at hpvo
          have hvse : s2.hashToValset pe = s.hashToValset pe := by
            rw [← hss]
            simp only [mkPost_hashToValset]
            rw [upd_ne _ _ _ _ (hd1 pe hpe), upd_ne _ _ _ _ (hd2 pe pne hpe hpne)]
          simp only [hvse]
          exact hpvo
      have hpesS : s2.epochStart hdr.prevHash = some pes := by
        rw [← hss]
        simp only [mkPost_epochStart]
        rw [upd_ne _ _ _ _ hne]
        exact hpes
      rw [core_second eL H s2 ph hdr pne pvOpt pes lfh hph hH hpneS hpvoS hpesS hlfh]
      simp only [coreStep, hinc, if_true, hvv]
      rw [← hss, mkPost_idem]
    · -- carry-forward branch: the first call stored epoch pe and next pne
      have hincf : (decide (hdr.prevHash = 0) || decide (pes + eL ≤ lfh + 3)) = false :=
        by simpa using hinc
      simp only [coreStep, hincf, Bool.false_eq_true, if_false] at hstep
      cases hpe : s.hashToEpoch hdr.prevHash with
      | none =>
        simp only [hpe] at hstep
        simp at hstep
      | some pe =>
        unfold prevValsetOf at hpvo
        simp only [hpe] at hpvo
        cases hvs : s.hashToValset pe with
        | none =>
          simp only [hvs] at hpvo
          exact absurd hpvo (by simp)
        | some pv =>
          simp only [hvs] at hpvo
          have hpvOpt : pvOpt = some pv := (Option.some.inj hpvo).symm
          subst hpvOpt
          simp only [hpe] at hstep
          simp only [EVResult.ok.injEq] at hstep
          obtain ⟨hee, hvv, hnn, hss⟩ := hstep
          subst hee
          subst hnn
          subst hvv
          have hpneS : s2.hashToNextEpoch hdr.prevHash = some pne := by
            rw [← hss]
            simp only [mkPost_hashToNextEpoch]
            rw [upd_ne _ _ _ _ hne]
            exact hpne
          have hpeS : s2.hashToEpoch hdr.prevHash = some pe := by
            rw [← hss]
            simp only [mkPost_hashToEpoch]
            rw [upd_ne _ _ _ _ hne]
            exact hpe
          have hvsS : s2.hashToValset pe = some pv := by
            rw [← hss]
            simp only [mkPost_hashToValset]
            rw [upd_ne _ _ _ _ (hd2 pe pne hpe hpne)]
            exact upd_self _ _ _
          have hpvoS : prevValsetOf s2 hdr.prevHash = some (some pv) := by
            unfold prevValsetOf
            rw [hpeS]
            simp only [hvsS]
          have hpesS : s2.epochStart hdr.prevHash = some pes := by
            rw [← hss]
            simp only [mkPost_epochStart]
            rw [upd_ne _ _ _ _ hne]
            exact hpes
          rw [core_second eL H s2 ph hdr pne (some pv) pes lfh hph hH hpneS hpvoS hpesS hlfh]
          simp only [coreStep, hincf, Bool.false_eq_true, if_false, hpeS]
          rw [← hss, mkPost_idem]

/-- Header store for a two-block chain: block 1 (height 1) on genesis, block 2
(height 2) on block 1. -/
def twoBlockH : Nat → Option Header :=
  fun h => if h = 1 then some ⟨0, 1, 0⟩ else if h = 2 then some ⟨1, 2, 0⟩ else none

/-- Memoization tables after querying block 1 from the initial tables. -/
def memoAfter1 : EMState := mkPost mkInitialEMState 1 0 0 1 2 false

theorem c1_increment_assignment_witness :
    mkInitialEMState.hashToNextEpoch 0 = some 0 ∧
    (1 : Nat) = 1 ∧
    (getEpochAndValset 5 2 oneBlockH mkInitialEMState 1).valsetOf = some (0 % 2) := by
  have h := c1_increment_assignment 5 2 oneBlockH mkInitialEMState 1 ⟨0, 1, 0⟩ 0 0 1
    (by decide) (by decide) (by decide) (by decide) (by decide) (by decide)
  exact ⟨h.1, h.2.1, h.2.2.2.2.2⟩

theorem c6_valset_monotone_witness :
    (0 : Nat) ≤ 1 ∧
    (incCondition 1 twoBlockH memoAfter1 2 = some true → (1 : Nat) = 0 + 1) ∧
    (incCondition 1 twoBlockH memoAfter1 2 = some false → (1 : Nat) = 0) :=
  c6_valset_monotone 1 twoBlockH memoAfter1 2 ⟨1, 2, 0⟩ 0 0 1 (by decide) (by decide)
    (by decide) (by decide) (by decide)

theorem c7_memo_idempotent_witness :
    getEpochAndValsetCore 5 oneBlockH memoAfter1 1 = .ok 0 0 1 memoAfter1 :=
  c7_memo_idempotent 5 oneBlockH mkInitialEMState memoAfter1 1 0 0 1 ⟨0, 1, 0⟩
    (by decide) rfl (by decide)
    (fun pe hpe => by simp [mkInitialEMState, upd] at hpe)
    (fun pe pne hpe _ => by simp [mkInitialEMState, upd] at hpe)

/-- `num_total_parts` of `MockEpochManager`: `12 + (num_shards + 1) % 50`. -/
def numTotalParts (numShards : Nat) : Nat := 12 + (numShards + 1) % 50

/-- `num_data_parts`: `1` when the total part count is at most 3, else
`(total_parts - 1) / 3`. -/
def numDataParts (numShards : Nat) : Nat :=
  let t := numTotalParts numShards
  if t ≤ 3 then 1 else (t - 1) / 3

/-- Result of `get_part_owner`: `epochOutOfBounds` models the returned
`EpochError::EpochOutOfBounds`, `panic` models an out-of-bounds index. -/
inductive PartOwnerResult
  | ok (a : Nat)
  | epochOutOfBounds (e : Nat)
  | panic
deriving DecidableEq

/-- `get_valset_for_epoch`: `hash_to_valset[epoch] % validators_by_valset.len()`,
`none` when the epoch has no registered valset. `vbv` lists each valset's ordered
block-producer account ids. -/
def getValsetForEpoch (vbv : List (List Nat)) (s : EMState) (eid : Nat) : Option Nat :=
  match s.hashToValset eid with
  | none => none
  | some w => some (w % vbv.length)

/-- `get_part_owner`: look up the epoch's block producers and return
`validators[(part_id + num_data_parts + num_total_parts) % validators.len()]`. -/
def getPartOwner (vbv : List (List Nat)) (numShards : Nat) (s : EMState)
    (eid partId : Nat) : PartOwnerResult :=
  match getValsetForEpoch vbv s eid with
  | none => .epochOutOfBounds eid
  | some w =>
    match vbv.get? w with
    | none => .panic
    | some validators =>
      match validators.get? ((partId + numDataParts numShards + numTotalParts numShards)
          % validators.length) with
      | none => .panic
      | some a => .ok a

/-- c9: for an epoch with a registered valset `w` whose producer list is nonempty,
`get_part_owner` returns `producers[(part_id + num_data_parts + num_total_parts) mod
len(producers)]`; the owner exists, and any tables registering the same valset for
some epoch yield the identical owner, so the result depends only on the producer
list, the part count and the data-part count. -/
theorem c9_part_owner (vbv : List (List Nat)) (numShards : Nat) (s : EMState)
    (eid partId w : Nat) (producers : List Nat)
    (hw : s.hashToValset eid = some w)
    (hp : vbv.get? (w % vbv.length) = some producers)
    (hne : producers ≠ []) :
    (∀ a, producers.get? ((partId + numDataParts numShards + numTotalParts numShards)
        % producers.length) = some a →
      getPartOwner vbv numShards s eid partId = .ok a) ∧
    (producers.get? ((partId + numDataParts numShards + numTotalParts numShards)
        % producers.length)).isSome = true ∧
    (∀ s2 eid2, s2.hashToValset eid2 = some w →
      getPartOwner vbv numShards s2 eid2 partId =
        getPartOwner vbv numShards s eid partId) := by
  have hlen : 0 < producers.length := List.length_pos.mpr hne
  have hidx : (partId + numDataParts numShards + numTotalParts numShards)
      % producers.length < producers.length := Nat.mod_lt _ hlen
  refine ⟨?_, ?_, ?_⟩
  · intro a ha
    unfold getPartOwner getValsetForEpoch
    simp only [hw, hp, ha]
  · rw [List.get?_eq_get hidx]
    rfl
  · intro s2 eid2 hw2
    unfold getPartOwner getValsetForEpoch
    simp only [hw, hw2]

theorem c9_part_owner_witness :
    getPartOwner [[10, 11], [20]] 2 mkInitialEMState 0 1 = .ok 10 :=
  (c9_part_owner [[10, 11], [20]] 2 mkInitialEMState 0 1 0 [10, 11]
    (by decide) (by decide) (by decide)).1 10 (by decide)

/-- Association-list lookup; models `HashMap::get` for the balances map. -/
def mapLookup (m : List (Nat × Nat)) (k : Nat) : Option Nat :=
  match m with
  | [] => none
  | (k2, v) :: rest => if k2 = k then some v else mapLookup rest k

/-- Association-list insert-or-replace; models `HashMap::insert` for the balances map. -/
def mapInsert (m : List (Nat × Nat)) (k v : Nat) : List (Nat × Nat) :=
  match m with
  | [] => [(k, v)]
  | (k2, v2) :: rest => if k2 = k then (k, v) :: rest else (k2, v2) :: mapInsert rest k v

/-- Set insert; models `HashSet::insert`. -/
def setInsert {α : Type} [DecidableEq α] (s : List α) (x : α) : List α :=
  if x ∈ s then s else s ++ [x]

/-- `KVState`: one shard-ledger snapshot — balances, the applied-receipt-id set and
the applied (receiver account, nonce) set. -/
structure KVState where
  amounts : List (Nat × Nat)
  receiptNonces : List Nat
  txNonces : List (Nat × Nat)
deriving DecidableEq

/-- Effective balance of an account: the stored balance, or 0 when the account has
no entry (what `query`/the credit path observe via `unwrap_or(&0)`). -/
def effBal (m : List (Nat × Nat)) (a : Nat) : Nat :=
  (mapLookup m a).getD 0

/-- Kinds of `ReceiptEnum`: `Action`, `PromiseYield` (both applied) and the
remaining data-receipt variants (which hit `unreachable!`). -/
inductive RKind
  | action
  | promiseYield
  | data
deriving DecidableEq

/-- An action in a receipt or transaction: a `Transfer` with its deposit, or any
other (unsupported) action kind. -/
inductive RAction
  | transfer (deposit : Nat)
  | other
deriving DecidableEq

/-- The receipt fields `apply_chunk` reads and writes: predecessor, receiver,
receipt id, the embedded `ActionReceipt`'s signer and gas price, the kind and
the action list. -/
structure KVReceipt where
  predecessorId : Nat
  receiverId : Nat
  receiptId : Nat
  signerId : Nat
  gasPrice : Nat
  kind : RKind
  actions : List RAction
deriving DecidableEq

/-- The transaction fields `apply_chunk` reads: `get_hash()`, signer, receiver,
nonce and the action list. The list passed to the model is the output of
`iter_nonexpired_transactions()`. -/
structure KVTx where
  hash : Nat
  signerId : Nat
  receiverId : Nat
  nonce : Nat
  actions : List RAction
deriving DecidableEq

/-- External collaborators of `kv_runtime.rs`, modelled as abstract functions:
`shardOf` is `account_id_to_shard_id(·, num_shards)` (a fixed hash-based v0 shard
layout), `rnHash` is `CryptoHash::hash_borsh` on the `ReceiptNonce { from, to,
amount, nonce }` record, and `rget` is `Receipt::get_hash`. -/
structure Ext where
  shardOf : Nat → Nat
  rnHash : Nat → Nat → Nat → Nat → Nat
  rget : KVReceipt → Nat

/-- `create_receipt_nonce`: the borsh hash of the (from, to, amount, nonce) tuple. -/
def createReceiptNonce (E : Ext) (sender receiver amount nonce : Nat) : Nat :=
  E.rnHash sender receiver amount nonce

/-- The panic sites of `apply_chunk` (all abort the process in Rust):
the two shard assertions, the duplicate-receipt panic, the `unreachable!` arms,
the `actions[0]` index on an empty receipt action list, the `assert_ne!(nonce, 0)`,
and the `unwrap` on a missing state root. -/
inductive PanicKind
  | receiptShardAssert
  | dupReceipt
  | nonActionReceipt
  | receiptActionsIndex
  | txShardAssert
  | txNonTransfer
  | nonceZeroAssert
  | missingRoot
  | decodeFail
deriving DecidableEq

/-- One queued balance transfer `(hash, from, to, amount, nonce)`. -/
structure Transfer where
  hash : Nat
  sender : Nat
  receiver : Nat
  amount : Nat
  nonce : Nat
deriving DecidableEq

/-- One `ExecutionOutcomeWithId`: the id, the spawned receipt hashes and the
executor (the code fills `SuccessValue(vec![])`, zero gas and no logs). -/
structure Outcome where
  id : Nat
  receiptIds : List Nat
  executorId : Nat
deriving DecidableEq

/-- Phase 1 of `apply_chunk`: walk the incoming receipts; assert the receiver is in
this shard, panic on a duplicate receipt id, record fresh ids, and queue a
credit-only transfer (nonce 0) when the first action is a Transfer. -/
def processReceipts (E : Ext) (shard : Nat) (st : KVState) (bt : List Transfer) :
    List KVReceipt → Except PanicKind (KVState × List Transfer)
  | [] => .ok (st, bt)
  | r :: rs =>
    match r.kind with
    | .data => .error .nonActionReceipt
    | _ =>
      if E.shardOf r.receiverId ≠ shard then .error .receiptShardAssert
      else if r.receiptId ∈ st.receiptNonces then .error .dupReceipt
      else
        let st2 := { st with receiptNonces := setInsert st.receiptNonces r.receiptId }
        match r.actions with
        | [] => .error .receiptActionsIndex
        | .transfer dep :: _ =>
          processReceipts E shard st2
            (bt ++ [⟨E.rget r, r.predecessorId, r.receiverId, dep, 0⟩]) rs
        | .other :: _ => processReceipts E shard st2 bt rs

/-- Phase 2 of `apply_chunk`: walk the (non-expired) transactions; assert the signer
is in this shard, skip empty action lists, panic on a non-Transfer first action;
queue a full transfer for a fresh (receiver, nonce) pair after recording it, and a
zero-amount transfer for a replayed pair. -/
def processTxs (E : Ext) (shard : Nat) (st : KVState) (bt : List Transfer) :
    List KVTx → Except PanicKind (KVState × List Transfer)
  | [] => .ok (st, bt)
  | t :: ts =>
    if E.shardOf t.signerId ≠ shard then .error .txShardAssert
    else
      match t.actions with
      | [] => processTxs E shard st bt ts
      | .transfer dep :: _ =>
        if (t.receiverId, t.nonce) ∈ st.txNonces then
          processTxs E shard st
            (bt ++ [⟨t.hash, t.signerId, t.receiverId, 0, t.nonce⟩]) ts
        else
          processTxs E shard
            { st with txNonces := setInsert st.txNonces (t.receiverId, t.nonce) }
            (bt ++ [⟨t.hash, t.signerId, t.receiverId, dep, t.nonce⟩]) ts
      | .other :: _ => .error .txNonTransfer

/-- The accumulator of phase 3: the evolving snapshot, the outcome list and the
outgoing receipt list. -/
structure TAcc where
  st : KVState
  outcomes : List Outcome
  outgoing : List KVReceipt
deriving DecidableEq

/-- The outgoing receipt built for a cross-shard transfer: deterministic id from
`create_receipt_nonce`, a single Transfer action, signer = sender, the block's
gas price. -/
def mkOutReceipt (E : Ext) (gp : Nat) (t : Transfer) : KVReceipt :=
  { predecessorId := t.sender
    receiverId := t.receiver
    receiptId := createReceiptNonce E t.sender t.receiver t.amount t.nonce
    signerId := t.sender
    gasPrice := gp
    kind := .action
    actions := [.transfer t.amount] }

/-- The `good_to_go` computation of phase 3: a transfer from another shard is
already debited (`some st` unchanged); a local transfer debits the sender when a
sufficient balance entry exists, and otherwise the transfer is dropped (`none`). -/
def debitResult (E : Ext) (shard : Nat) (st : KVState) (t : Transfer) :
    Option KVState :=
  if E.shardOf t.sender ≠ shard then some st
  else
    match mapLookup st.amounts t.sender with
    | some b =>
      if t.amount ≤ b then
        some { st with amounts := mapInsert st.amounts t.sender (b - t.amount) }
      else none
    | none => none

/-- One iteration of phase 3 of `apply_chunk`: debit locally-originated transfers
(dropping them silently on a missing entry or insufficient balance), then either
credit a local receiver or emit an outgoing receipt (asserting a nonzero nonce),
and record one execution outcome per applied transfer. -/
def applyTransferStep (E : Ext) (shard gp : Nat) (acc : TAcc) (t : Transfer) :
    Except PanicKind TAcc :=
  match debitResult E shard acc.st t with
  | none => .ok acc
  | some st1 =>
    if E.shardOf t.receiver = shard then
      let st2 := { st1 with
        amounts := mapInsert st1.amounts t.receiver (effBal st1.amounts t.receiver + t.amount) }
      .ok { st := st2
            outcomes := acc.outcomes ++ [⟨t.hash, [], t.receiver⟩]
            outgoing := acc.outgoing }
    else if t.nonce = 0 then .error .nonceZeroAssert
    else
      .ok { st := st1
            outcomes := acc.outcomes ++ [⟨t.hash, [E.rget (mkOutReceipt E gp t)], t.receiver⟩]
            outgoing := acc.outgoing ++ [mkOutReceipt E gp t] }

/-- Phase 3 of `apply_chunk`: fold `applyTransferStep` over the queued transfers. -/
def applyTransfers (E : Ext) (shard gp : Nat) (acc : TAcc) :
    List Transfer → Except PanicKind TAcc
  | [] => .ok acc
  | t :: ts =>
    match applyTransferStep E shard gp acc t with
    | .error p => .error p
    | .ok acc2 => applyTransfers E shard gp acc2 ts

/-- `KeyValueRuntime::apply_chunk` on an already-loaded snapshot: phase 1 over the
receipts, phase 2 over the transactions (both accumulating into one transfer queue,
receipts first), then phase 3 applying the queue. -/
def applyChunkCore (E : Ext) (shard gp : Nat) (st : KVState)
    (receipts : List KVReceipt) (txs : List KVTx) : Except PanicKind TAcc :=
  match processReceipts E shard st [] receipts with
  | .error p => .error p
  | .ok (st1, bt1) =>
    match processTxs E shard st1 bt1 txs with
    | .error p => .error p
    | .ok (st2, bt) => applyTransfers E shard gp ⟨st2, [], []⟩ bt

theorem mapLookup_mapInsert (m : List (Nat × Nat)) (k v x : Nat) :
    mapLookup (mapInsert m k v) x = if x = k then some v else mapLookup m x := by
  induction m with
  | nil =>
    simp only [mapInsert, mapLookup]
    by_cases hx : x = k
    · simp [hx]
    · simp [hx, Ne.symm hx]
  | cons p rest ih =>
    obtain ⟨k2, v2⟩ := p
    by_cases hk : k2 = k
    · subst hk
      simp only [mapInsert, if_true]
      simp only [mapLookup]
      by_cases hx : x = k2
      · simp [hx]
      · simp [hx, Ne.symm hx]
    · simp only [mapInsert]
      rw [if_neg hk]
      simp only [mapLookup]
      by_cases hx2 : k2 = x
      · subst hx2
        simp [hk]
      · simp only [if_neg hx2]
        rw [ih]

theorem mapInsert_self {m : List (Nat × Nat)} {k v : Nat}
    (h : mapLookup m k = some v) : mapInsert m k v = m := by
  induction m with
  | nil => simp [mapLookup] at h
  | cons p rest ih =>
    obtain ⟨k2, v2⟩ := p
    by_cases hk : k2 = k
    · subst hk
      simp only [mapLookup, if_true, Option.some.injEq] at h
      subst h
      simp [mapInsert]
    · simp only [mapLookup, if_neg hk] at h
      simp [mapInsert, hk, ih h]

theorem effBal_mapInsert (m : List (Nat × Nat)) (k v x : Nat) :
    effBal (mapInsert m k v) x = if x = k then v else effBal m x := by
  unfold effBal
  rw [mapLookup_mapInsert]
  by_cases hx : x = k <;> simp [hx]

theorem mem_setInsert {α : Type} [DecidableEq α] (s : List α) (x y : α) :
    y ∈ setInsert s x ↔ y ∈ s ∨ y = x := by
  unfold setInsert
  by_cases hx : x ∈ s
  · simp only [if_pos hx]
    constructor
    · exact Or.inl
    · rintro (h | h)
      · exact h
      · exact h ▸ hx
  · simp [if_neg hx]

theorem mem_setInsert_of_mem {α : Type} [DecidableEq α] {s : List α} {y : α} (x : α)
    (h : y ∈ s) : y ∈ setInsert s x :=
  (mem_setInsert s x y).mpr (Or.inl h)

theorem applyTransfers_append (E : Ext) (shard gp : Nat) :
    ∀ (l1 l2 : List Transfer) (acc : TAcc),
    applyTransfers E shard gp acc (l1 ++ l2) =
      match applyTransfers E shard gp acc l1 with
      | .ok acc2 => applyTransfers E shard gp acc2 l2
      | .error p => .error p := by
  intro l1
  induction l1 with
  | nil => intro l2 acc; rfl
  | cons t ts ih =>
    intro l2 acc
    simp only [List.cons_append, applyTransfers]
    cases applyTransferStep E shard gp acc t with
    | error p => rfl
    | ok acc2 => exact ih l2 acc2

theorem processTxs_append (E : Ext) (shard : Nat) :
    ∀ (l1 l2 : List KVTx) (st : KVState) (bt : List Transfer),
    processTxs E shard st bt (l1 ++ l2) =
      match processTxs E shard st bt l1 with
      | .ok (st2, bt2) => processTxs E shard st2 bt2 l2
      | .error p => .error p := by
  intro l1
  induction l1 with
  | nil => intro l2 st bt; rfl
  | cons t ts ih =>
    intro l2 st bt
    simp only [List.cons_append, processTxs]
    by_cases hs : E.shardOf t.signerId ≠ shard
    · simp only [if_pos hs]
    · simp only [if_neg hs]
      cases hact : t.actions with
      | nil => exact ih l2 st bt
      | cons a rest =>
        cases a with
        | transfer dep =>
          by_cases hm : (t.receiverId, t.nonce) ∈ st.txNonces
          · simp only [if_pos hm]
            exact ih l2 st _
          · simp only [if_neg hm]
            exact ih l2 _ _
        | other => rfl

theorem processReceipts_txNonces_amounts (E : Ext) (shard : Nat) :
    ∀ (rs : List KVReceipt) (st st2 : KVState) (bt bt2 : List Transfer),
    processReceipts E shard st bt rs = .ok (st2, bt2) →
    st2.txNonces = st.txNonces ∧ st2.amounts = st.amounts := by
  intro rs
  induction rs with
  | nil =>
    intro st st2 bt bt2 h
    simp only [processReceipts, Except.ok.injEq, Prod.mk.injEq] at h
    rw [← h.1]
    exact ⟨rfl, rfl⟩
  | cons r rest ih =>
    intro st st2 bt bt2 h
    simp only [processReceipts] at h
    cases hk : r.kind with
    | data =>
      simp only [hk] at h
      exact absurd h (by simp)
    | action =>
      simp only [hk] at h
      by_cases hs : E.shardOf r.receiverId ≠ shard
      · rw [if_pos hs] at h
        exact absurd h (by simp)
      · rw [if_neg hs] at h
        by_cases hm : r.receiptId ∈ st.receiptNonces
        · rw [if_pos hm] at h
          exact absurd h (by simp)
        · rw [if_neg hm] at h
          cases hact : r.actions with
          | nil =>
            simp only [hact] at h
            exact absurd h (by simp)
          | cons a ar =>
            simp only [hact] at h
            cases a with
            | transfer dep =>
              refine ih { st with receiptNonces := setInsert st.receiptNonces r.receiptId }
                st2 (bt ++ [⟨E.rget r, r.predecessorId, r.receiverId, dep, 0⟩]) bt2 ?_
              exact h
            | other =>
              refine ih { st with receiptNonces := setInsert st.receiptNonces r.receiptId }
                st2 bt bt2 ?_
              exact h
    | promiseYield =>
      simp only [hk] at h
      by_cases hs : E.shardOf r.receiverId ≠ shard
      · rw [if_pos hs] at h
        exact absurd h (by simp)
      · rw [if_neg hs] at h
        by_cases hm : r.receiptId ∈ st.receiptNonces
        · rw [if_pos hm] at h
          exact absurd h (by simp)
        · rw [if_neg hm] at h
          cases hact : r.actions with
          | nil =>
            simp only [hact] at h
            exact absurd h (by simp)
          | cons a ar =>
            simp only [hact] at h
            cases a with
            | transfer dep =>
              refine ih { st with receiptNonces := setInsert st.receiptNonces r.receiptId }
                st2 (bt ++ [⟨E.rget r, r.predecessorId, r.receiverId, dep, 0⟩]) bt2 ?_
              exact h
            | other =>
              refine ih { st with receiptNonces := setInsert st.receiptNonces r.receiptId }
                st2 bt bt2 ?_
              exact h

/-- Projection of a non-panicking phase-3 result. -/
def TAccOf : Except PanicKind TAcc → Option TAcc
  | .ok a => some a
  | .error _ => none

/-- Concrete external-function instance used by concrete scenarios: account 3 lives
in shard 1, every other account in shard 0; the two hash functions are simple
injective encodings. -/
def cE : Ext :=
  ⟨fun a => if a = 3 then 1 else 0,
   fun a b c d => ((a * 1000000 + b * 10000) + c * 100) + d,
   fun r => r.receiptId + 500⟩

theorem debitResult_nonlocal (E : Ext) (shard : Nat) (st : KVState) (t : Transfer)
    (hs : E.shardOf t.sender ≠ shard) :
    debitResult E shard st t = some st := by
  unfold debitResult
  rw [if_pos hs]

theorem debitResult_dropped (E : Ext) (shard : Nat) (st : KVState) (t : Transfer)
    (hlocal : E.shardOf t.sender = shard)
    (hins : ∀ b, mapLookup st.amounts t.sender = some b → b < t.amount) :
    debitResult E shard st t = none := by
  unfold debitResult
  rw [if_neg (by simp [hlocal])]
  cases hl : mapLookup st.amounts t.sender with
  | none => rfl
  | some b =>
    have hb := hins b hl
    show (if t.amount ≤ b then _ else none) = none
    rw [if_neg (by omega)]

theorem debitResult_debit (E : Ext) (shard : Nat) (st : KVState) (t : Transfer)
    (b : Nat)
    (hlocal : E.shardOf t.sender = shard)
    (hl : mapLookup st.amounts t.sender = some b)
    (hle : t.amount ≤ b) :
    debitResult E shard st t =
      some { st with amounts := mapInsert st.amounts t.sender (b - t.amount) } := by
  unfold debitResult
  rw [if_neg (by simp [hlocal])]
  show (match mapLookup st.amounts t.sender with
    | some b =>
      if t.amount ≤ b then
        some { st with amounts := mapInsert st.amounts t.sender (b - t.amount) }
      else none
    | none => none) = _
  rw [hl]
  show (if t.amount ≤ b then _ else none) = _
  rw [if_pos hle]

theorem applyTransferStep_insufficient (E : Ext) (shard gp : Nat) (acc : TAcc)
    (t : Transfer)
    (hlocal : E.shardOf t.sender = shard)
    (hins : ∀ b, mapLookup acc.st.amounts t.sender = some b → b < t.amount) :
    applyTransferStep E shard gp acc t = .ok acc := by
  unfold applyTransferStep
  rw [debitResult_dropped E shard acc.st t hlocal hins]

/-- c4: a queued transfer whose sender is in this shard but has no balance entry or
a balance strictly below the amount is silently dropped: the whole transfer loop
produces exactly the result it would produce without that transfer — no outcome, no
outgoing receipt, no error and no balance change come from it. -/
theorem c4_insufficient_dropped (E : Ext) (shard gp : Nat) (acc0 acc : TAcc)
    (L1 L2 : List Transfer) (t : Transfer)
    (h1 : applyTransfers E shard gp acc0 L1 = .ok acc)
    (hlocal : E.shardOf t.sender = shard)
    (hins : ∀ b, mapLookup acc.st.amounts t.sender = some b → b < t.amount) :
    applyTransfers E shard gp acc0 (L1 ++ t :: L2) =
      applyTransfers E shard gp acc0 (L1 ++ L2) := by
  rw [applyTransfers_append, applyTransfers_append, h1]
  show applyTransfers E shard gp acc (t :: L2) = applyTransfers E shard gp acc L2
  simp only [applyTransfers,
    applyTransferStep_insufficient E shard gp acc t hlocal hins]

theorem c4_insufficient_dropped_witness :
    applyTransfers cE 0 0 ⟨⟨[], [], []⟩, [], []⟩ [⟨5, 1, 2, 10, 1⟩] =
      applyTransfers cE 0 0 ⟨⟨[], [], []⟩, [], []⟩ [] :=
  c4_insufficient_dropped cE 0 0 ⟨⟨[], [], []⟩, [], []⟩ ⟨⟨[], [], []⟩, [], []⟩
    [] [] ⟨5, 1, 2, 10, 1⟩ rfl (by decide)
    (fun b hb => by simp [mapLookup] at hb)

/-- c5: an applied transfer whose receiver lives in another shard credits no local
balance (every effective balance weakly decreases) and emits exactly one outgoing
receipt, addressed to the receiver, whose id is the borsh hash of
(sender, receiver, amount, nonce) and whose single action is a Transfer of the
same amount; one outcome referencing that receipt is recorded. -/
theorem c5_cross_shard_receipt (E : Ext) (shard gp : Nat) (acc : TAcc) (t : Transfer)
    (hgood : E.shardOf t.sender ≠ shard ∨
      ∃ b, mapLookup acc.st.amounts t.sender = some b ∧ t.amount ≤ b)
    (hcross : E.shardOf t.receiver ≠ shard)
    (hnz : t.nonce ≠ 0) :
    (TAccOf (applyTransferStep E shard gp acc t)).isSome = true ∧
    (mkOutReceipt E gp t).receiptId =
      createReceiptNonce E t.sender t.receiver t.amount t.nonce ∧
    (mkOutReceipt E gp t).receiverId = t.receiver ∧
    (mkOutReceipt E gp t).actions = [.transfer t.amount] ∧
    ∀ acc2, applyTransferStep E shard gp acc t = .ok acc2 →
      acc2.outgoing = acc.outgoing ++ [mkOutReceipt E gp t] ∧
      acc2.outcomes =
        acc.outcomes ++ [⟨t.hash, [E.rget (mkOutReceipt E gp t)], t.receiver⟩] ∧
      (∀ a, effBal acc2.st.amounts a ≤ effBal acc.st.amounts a) := by
  by_cases hs : E.shardOf t.sender ≠ shard
  · have hstep : applyTransferStep E shard gp acc t =
        .ok { st := acc.st
              outcomes := acc.outcomes ++
                [⟨t.hash, [E.rget (mkOutReceipt E gp t)], t.receiver⟩]
              outgoing := acc.outgoing ++ [mkOutReceipt E gp t] } := by
      unfold applyTransferStep
      rw [debitResult_nonlocal E shard acc.st t hs]
      show (if E.shardOf t.receiver = shard then _
        else if t.nonce = 0 then Except.error PanicKind.nonceZeroAssert else _) = _
      rw [if_neg hcross, if_neg hnz]
    refine ⟨by rw [hstep]; rfl, rfl, rfl, rfl, ?_⟩
    intro acc2 h2
    rw [hstep] at h2
    injection h2 with h2
    subst h2
    exact ⟨rfl, rfl, fun a => le_refl _⟩
  · have hlocal : E.shardOf t.sender = shard := by
      by_cases h : E.shardOf t.sender = shard
      · exact h
      · exact absurd h hs
    obtain ⟨b, hb, hle⟩ := hgood.resolve_left (fun h => hs h)
    have hstep : applyTransferStep E shard gp acc t =
        .ok { st := { acc.st with
                amounts := mapInsert acc.st.amounts t.sender (b - t.amount) }
              outcomes := acc.outcomes ++
                [⟨t.hash, [E.rget (mkOutReceipt E gp t)], t.receiver⟩]
              outgoing := acc.outgoing ++ [mkOutReceipt E gp t] } := by
      unfold applyTransferStep
      rw [debitResult_debit E shard acc.st t b hlocal hb hle]
      show (if E.shardOf t.receiver = shard then _
        else if t.nonce = 0 then Except.error PanicKind.nonceZeroAssert else _) = _
      rw [if_neg hcross, if_neg hnz]
    refine ⟨by rw [hstep]; rfl, rfl, rfl, rfl, ?_⟩
    intro acc2 h2
    rw [hstep] at h2
    injection h2 with h2
    subst h2
    refine ⟨rfl, rfl, fun a => ?_⟩
    show effBal (mapInsert acc.st.amounts t.sender (b - t.amount)) a ≤
      effBal acc.st.amounts a
    rw [effBal_mapInsert]
    by_cases ha : a = t.sender
    · rw [if_pos ha, ha]
      unfold effBal
      rw [hb]
      simp
    · rw [if_neg ha]

theorem c5_cross_shard_receipt_witness :
    (TAccOf (applyTransferStep cE 0 0 ⟨⟨[(1, 1000)], [], []⟩, [], []⟩
        ⟨8, 1, 3, 50, 2⟩)).isSome = true ∧
    (mkOutReceipt cE 0 ⟨8, 1, 3, 50, 2⟩).receiptId = createReceiptNonce cE 1 3 50 2 ∧
    (mkOutReceipt cE 0 ⟨8, 1, 3, 50, 2⟩).receiverId = 3 ∧
    (mkOutReceipt cE 0 ⟨8, 1, 3, 50, 2⟩).actions = [.transfer 50] := by
  have h := c5_cross_shard_receipt cE 0 0 ⟨⟨[(1, 1000)], [], []⟩, [], []⟩
    ⟨8, 1, 3, 50, 2⟩ (Or.inr ⟨1000, rfl, by decide⟩) (by decide) (by decide)
  exact ⟨h.1, h.2.1, h.2.2.1, h.2.2.2.1⟩

theorem processTxs_skip_empty (E : Ext) (shard : Nat) (st : KVState)
    (bt : List Transfer) (t : KVTx) (ts : List KVTx)
    (hshard : E.shardOf t.signerId = shard) (hact : t.actions = []) :
    processTxs E shard st bt (t :: ts) = processTxs E shard st bt ts := by
  simp only [processTxs, hact]
  rw [if_neg (by simp [hshard])]

/-- c10 amended: a transaction with an empty action list whose signer belongs to the
chunk's shard is skipped entirely — the whole call behaves exactly as if the
transaction were absent (no panic from it, no (receiver, nonce) recorded, no
outcome, no balance change). When the signer is outside the shard the signer-shard
assertion, which precedes the empty-actions check, panics instead. -/
theorem processTxs_skip_empty_mid (E : Ext) (shard : Nat) (st : KVState)
    (bt : List Transfer) (l1 l2 : List KVTx) (t : KVTx)
    (hshard : E.shardOf t.signerId = shard) (hact : t.actions = []) :
    processTxs E shard st bt (l1 ++ t :: l2) = processTxs E shard st bt (l1 ++ l2) := by
  rw [processTxs_append, processTxs_append]
  cases ht : processTxs E shard st bt l1 with
  | error p => rfl
  | ok pr =>
    obtain ⟨st2, bt2⟩ := pr
    show processTxs E shard st2 bt2 (t :: l2) = processTxs E shard st2 bt2 l2
    exact processTxs_skip_empty E shard st2 bt2 t l2 hshard hact

/-- If the transaction lists produce identical phase-2 results from any phase-1
state, the whole chunk applications coincide. -/
theorem applyChunkCore_txs_congr (E : Ext) (shard gp : Nat) (st : KVState)
    (receipts : List KVReceipt) (txs1 txs2 : List KVTx)
    (h : ∀ st1 bt1, processTxs E shard st1 bt1 txs1 = processTxs E shard st1 bt1 txs2) :
    applyChunkCore E shard gp st receipts txs1 =
      applyChunkCore E shard gp st receipts txs2 := by
  unfold applyChunkCore
  cases hr : processReceipts E shard st [] receipts with
  | error p => rfl
  | ok pr =>
    obtain ⟨st1, bt1⟩ := pr
    show (match processTxs E shard st1 bt1 txs1 with
      | .error p => (Except.error p : Except PanicKind TAcc)
      | .ok (st2, bt) => applyTransfers E shard gp ⟨st2, [], []⟩ bt) =
      match processTxs E shard st1 bt1 txs2 with
      | .error p => (Except.error p : Except PanicKind TAcc)
      | .ok (st2, bt) => applyTransfers E shard gp ⟨st2, [], []⟩ bt
    rw [h st1 bt1]

theorem c10_empty_actions_skipped (E : Ext) (shard gp : Nat) (st : KVState)
    (receipts : List KVReceipt) (l1 l2 : List KVTx) (t : KVTx)
    (hshard : E.shardOf t.signerId = shard) (hact : t.actions = []) :
    applyChunkCore E shard gp st receipts (l1 ++ t :: l2) =
      applyChunkCore E shard gp st receipts (l1 ++ l2) :=
  applyChunkCore_txs_congr E shard gp st receipts (l1 ++ t :: l2) (l1 ++ l2)
    (fun st1 bt1 => processTxs_skip_empty_mid E shard st1 bt1 l1 l2 t hshard hact)

theorem c10_empty_actions_skipped_witness :
    applyChunkCore cE 0 0 ⟨[(1, 5)], [], []⟩ [] [⟨9, 1, 2, 1, []⟩] =
      applyChunkCore cE 0 0 ⟨[(1, 5)], [], []⟩ [] [] :=
  c10_empty_actions_skipped cE 0 0 ⟨[(1, 5)], [], []⟩ [] [] [] ⟨9, 1, 2, 1, []⟩
    (by decide) rfl

/-- c10 counterexample: an empty-actions transaction whose signer is assigned to a
different shard makes the call abort on the signer-shard assertion, so "a
transaction whose action list is empty is skipped entirely: it is not fatal" fails
as stated for arbitrary apply_chunk calls. -/
theorem c10_counterexample :
    (⟨9, 3, 2, 1, []⟩ : KVTx).actions = [] ∧
    applyChunkCore cE 0 0 ⟨[], [], []⟩ [] [⟨9, 3, 2, 1, []⟩] =
      .error .txShardAssert :=
  ⟨rfl, rfl⟩

/-- True exactly when the call hit one of the modelled panic/abort sites. -/
def isPanic : Except PanicKind TAcc → Bool
  | .error _ => true
  | .ok _ => false

theorem processTxs_cons_replay (E : Ext) (shard : Nat) (st : KVState)
    (bt : List Transfer) (t : KVTx) (ts : List KVTx) (dep : Nat) (ar : List RAction)
    (hs : E.shardOf t.signerId = shard)
    (hact : t.actions = .transfer dep :: ar)
    (hm : (t.receiverId, t.nonce) ∈ st.txNonces) :
    processTxs E shard st bt (t :: ts) =
      processTxs E shard st
        (bt ++ [⟨t.hash, t.signerId, t.receiverId, 0, t.nonce⟩]) ts := by
  simp only [processTxs]
  rw [if_neg (by simp [hs]), hact]
  show (if (t.receiverId, t.nonce) ∈ st.txNonces then _ else _) = _
  rw [if_pos hm]

theorem processTxs_cons_fresh (E : Ext) (shard : Nat) (st : KVState)
    (bt : List Transfer) (t : KVTx) (ts : List KVTx) (dep : Nat) (ar : List RAction)
    (hs : E.shardOf t.signerId = shard)
    (hact : t.actions = .transfer dep :: ar)
    (hm : (t.receiverId, t.nonce) ∉ st.txNonces) :
    processTxs E shard st bt (t :: ts) =
      processTxs E shard
        { st with txNonces := setInsert st.txNonces (t.receiverId, t.nonce) }
        (bt ++ [⟨t.hash, t.signerId, t.receiverId, dep, t.nonce⟩]) ts := by
  simp only [processTxs]
  rw [if_neg (by simp [hs]), hact]
  show (if (t.receiverId, t.nonce) ∈ st.txNonces then _ else _) = _
  rw [if_neg hm]

theorem applyTransferStep_dropped (E : Ext) (shard gp : Nat) (acc : TAcc)
    (t : Transfer) (hd : debitResult E shard acc.st t = none) :
    applyTransferStep E shard gp acc t = .ok acc := by
  unfold applyTransferStep
  rw [hd]

theorem applyTransferStep_ok_local (E : Ext) (shard gp : Nat) (acc : TAcc)
    (t : Transfer) (st1 : KVState)
    (hd : debitResult E shard acc.st t = some st1)
    (hr : E.shardOf t.receiver = shard) :
    applyTransferStep E shard gp acc t =
      .ok { st := { st1 with
              amounts := mapInsert st1.amounts t.receiver
                (effBal st1.amounts t.receiver + t.amount) }
            outcomes := acc.outcomes ++ [⟨t.hash, [], t.receiver⟩]
            outgoing := acc.outgoing } := by
  unfold applyTransferStep
  rw [hd]
  show (if E.shardOf t.receiver = shard then _ else _) = _
  rw [if_pos hr]

theorem applyTransferStep_ok_cross (E : Ext) (shard gp : Nat) (acc : TAcc)
    (t : Transfer) (st1 : KVState)
    (hd : debitResult E shard acc.st t = some st1)
    (hr : E.shardOf t.receiver ≠ shard) (hz : t.nonce ≠ 0) :
    applyTransferStep E shard gp acc t =
      .ok { st := st1
            outcomes := acc.outcomes ++
              [⟨t.hash, [E.rget (mkOutReceipt E gp t)], t.receiver⟩]
            outgoing := acc.outgoing ++ [mkOutReceipt E gp t] } := by
  unfold applyTransferStep
  rw [hd]
  show (if E.shardOf t.receiver = shard then _
    else if t.nonce = 0 then Except.error PanicKind.nonceZeroAssert else _) = _
  rw [if_neg hr, if_neg hz]

theorem applyTransferStep_nonce_zero (E : Ext) (shard gp : Nat) (acc : TAcc)
    (t : Transfer) (st1 : KVState)
    (hd : debitResult E shard acc.st t = some st1)
    (hr : E.shardOf t.receiver ≠ shard) (hz : t.nonce = 0) :
    applyTransferStep E shard gp acc t = .error .nonceZeroAssert := by
  unfold applyTransferStep
  rw [hd]
  show (if E.shardOf t.receiver = shard then _
    else if t.nonce = 0 then Except.error PanicKind.nonceZeroAssert else _) = _
  rw [if_neg hr, if_pos hz]

theorem notMem_setInsert {α : Type} [DecidableEq α] {s : List α} {x y : α}
    (h1 : y ∉ s) (h2 : y ≠ x) : y ∉ setInsert s x := by
  intro hmem
  rcases (mem_setInsert s x y).mp hmem with h | h
  · exact h1 h
  · exact h2 h

theorem processReceipts_dup_panics (E : Ext) (shard : Nat) :
    ∀ (rs : List KVReceipt) (st : KVState) (bt : List Transfer),
    (∃ r ∈ rs, r.receiptId ∈ st.receiptNonces) →
    ∃ p, processReceipts E shard st bt rs = .error p := by
  intro rs
  induction rs with
  | nil =>
    rintro st bt ⟨r, hr, -⟩
    exact absurd hr (by simp)
  | cons r rest ih =>
    rintro st bt ⟨r2, hr2, hmem⟩
    cases hk : r.kind with
    | data =>
      refine ⟨.nonActionReceipt, ?_⟩
      simp only [processReceipts, hk]
    | action =>
      by_cases hs : E.shardOf r.receiverId ≠ shard
      · refine ⟨.receiptShardAssert, ?_⟩
        simp only [processReceipts, hk]
        rw [if_pos hs]
      · by_cases hm : r.receiptId ∈ st.receiptNonces
        · refine ⟨.dupReceipt, ?_⟩
          simp only [processReceipts, hk]
          rw [if_neg hs, if_pos hm]
        · have hr2rest : r2 ∈ rest := by
            rcases List.mem_cons.mp hr2 with heq | h
            · exact absurd (heq ▸ hmem) hm
            · exact h
          cases hact : r.actions with
          | nil =>
            refine ⟨.receiptActionsIndex, ?_⟩
            simp only [processReceipts, hk]
            rw [if_neg hs, if_neg hm]
            simp only [hact]
          | cons a ar =>
            have hmem2 : r2.receiptId ∈ (setInsert st.receiptNonces r.receiptId) :=
              mem_setInsert_of_mem _ hmem
            cases a with
            | transfer dep =>
              obtain ⟨p, hp⟩ := ih
                { st with receiptNonces := setInsert st.receiptNonces r.receiptId }
                (bt ++ [⟨E.rget r, r.predecessorId, r.receiverId, dep, 0⟩])
                ⟨r2, hr2rest, hmem2⟩
              refine ⟨p, ?_⟩
              simp only [processReceipts, hk]
              rw [if_neg hs, if_neg hm]
              simp only [hact]
              exact hp
            | other =>
              obtain ⟨p, hp⟩ := ih
                { st with receiptNonces := setInsert st.receiptNonces r.receiptId }
                bt ⟨r2, hr2rest, hmem2⟩
              refine ⟨p, ?_⟩
              simp only [processReceipts, hk]
              rw [if_neg hs, if_neg hm]
              simp only [hact]
              exact hp
    | promiseYield =>
      by_cases hs : E.shardOf r.receiverId ≠ shard
      · refine ⟨.receiptShardAssert, ?_⟩
        simp only [processReceipts, hk]
        rw [if_pos hs]
      · by_cases hm : r.receiptId ∈ st.receiptNonces
        · refine ⟨.dupReceipt, ?_⟩
          simp only [processReceipts, hk]
          rw [if_neg hs, if_pos hm]
        · have hr2rest : r2 ∈ rest := by
            rcases List.mem_cons.mp hr2 with heq | h
            · exact absurd (heq ▸ hmem) hm
            · exact h
          cases hact : r.actions with
          | nil =>
            refine ⟨.receiptActionsIndex, ?_⟩
            simp only [processReceipts, hk]
            rw [if_neg hs, if_neg hm]
            simp only [hact]
          | cons a ar =>
            have hmem2 : r2.receiptId ∈ (setInsert st.receiptNonces r.receiptId) :=
              mem_setInsert_of_mem _ hmem
            cases a with
            | transfer dep =>
              obtain ⟨p, hp⟩ := ih
                { st with receiptNonces := setInsert st.receiptNonces r.receiptId }
                (bt ++ [⟨E.rget r, r.predecessorId, r.receiverId, dep, 0⟩])
                ⟨r2, hr2rest, hmem2⟩
              refine ⟨p, ?_⟩
              simp only [processReceipts, hk]
              rw [if_neg hs, if_neg hm]
              simp only [hact]
              exact hp
            | other =>
              obtain ⟨p, hp⟩ := ih
                { st with receiptNonces := setInsert st.receiptNonces r.receiptId }
                bt ⟨r2, hr2rest, hmem2⟩
              refine ⟨p, ?_⟩
              simp only [processReceipts, hk]
              rw [if_neg hs, if_neg hm]
              simp only [hact]
              exact hp

theorem processReceipts_fresh_no_dup (E : Ext) (shard : Nat) :
    ∀ (rs : List KVReceipt) (st : KVState) (bt : List Transfer),
    (∀ r ∈ rs, r.receiptId ∉ st.receiptNonces) →
    rs.Pairwise (fun a b => a.receiptId ≠ b.receiptId) →
    processReceipts E shard st bt rs ≠ .error .dupReceipt := by
  intro rs
  induction rs with
  | nil =>
    intro st bt _ _ h
    simp [processReceipts] at h
  | cons r rest ih =>
    intro st bt hfresh hpw h
    have hm : r.receiptId ∉ st.receiptNonces := hfresh r (List.mem_cons_self r rest)
    have hpw2 := List.pairwise_cons.mp hpw
    cases hk : r.kind with
    | data =>
      simp only [processReceipts, hk] at h
      exact absurd h (by simp)
    | action =>
      simp only [processReceipts, hk] at h
      by_cases hs : E.shardOf r.receiverId ≠ shard
      · rw [if_pos hs] at h
        exact absurd h (by simp)
      · rw [if_neg hs, if_neg hm] at h
        cases hact : r.actions with
        | nil =>
          simp only [hact] at h
          exact absurd h (by simp)
        | cons a ar =>
          simp only [hact] at h
          have hfresh2 : ∀ r2 ∈ rest,
              r2.receiptId ∉ setInsert st.receiptNonces r.receiptId :=
            fun r2 h2 => notMem_setInsert (hfresh r2 (List.mem_cons_of_mem r h2))
              (fun he => (hpw2.1 r2 h2) he.symm)
          cases a with
          | transfer dep => exact ih _ _ hfresh2 hpw2.2 h
          | other => exact ih _ _ hfresh2 hpw2.2 h
    | promiseYield =>
      simp only [processReceipts, hk] at h
      by_cases hs : E.shardOf r.receiverId ≠ shard
      · rw [if_pos hs] at h
        exact absurd h (by simp)
      · rw [if_neg hs, if_neg hm] at h
        cases hact : r.actions with
        | nil =>
          simp only [hact] at h
          exact absurd h (by simp)
        | cons a ar =>
          simp only [hact] at h
          have hfresh2 : ∀ r2 ∈ rest,
              r2.receiptId ∉ setInsert st.receiptNonces r.receiptId :=
            fun r2 h2 => notMem_setInsert (hfresh r2 (List.mem_cons_of_mem r h2))
              (fun he => (hpw2.1 r2 h2) he.symm)
          cases a with
          | transfer dep => exact ih _ _ hfresh2 hpw2.2 h
          | other => exact ih _ _ hfresh2 hpw2.2 h

theorem processTxs_cons_shardAssert (E : Ext) (shard : Nat) (st : KVState)
    (bt : List Transfer) (t : KVTx) (ts : List KVTx)
    (hs : E.shardOf t.signerId ≠ shard) :
    processTxs E shard st bt (t :: ts) = .error .txShardAssert := by
  simp only [processTxs]
  rw [if_pos hs]

theorem processTxs_cons_other (E : Ext) (shard : Nat) (st : KVState)
    (bt : List Transfer) (t : KVTx) (ts : List KVTx) (ar : List RAction)
    (hs : E.shardOf t.signerId = shard) (hact : t.actions = .other :: ar) :
    processTxs E shard st bt (t :: ts) = .error .txNonTransfer := by
  simp only [processTxs]
  rw [if_neg (by simp [hs]), hact]

theorem processTxs_no_dup (E : Ext) (shard : Nat) :
    ∀ (txs : List KVTx) (st : KVState) (bt : List Transfer),
    processTxs E shard st bt txs ≠ .error .dupReceipt := by
  intro txs
  induction txs with
  | nil =>
    intro st bt h
    simp [processTxs] at h
  | cons t ts ih =>
    intro st bt h
    by_cases hs : E.shardOf t.signerId ≠ shard
    · rw [processTxs_cons_shardAssert E shard st bt t ts hs] at h
      exact absurd h (by simp)
    · have hsh : E.shardOf t.signerId = shard := by
        by_cases h2 : E.shardOf t.signerId = shard
        · exact h2
        · exact absurd h2 hs
      cases hact : t.actions with
      | nil =>
        rw [processTxs_skip_empty E shard st bt t ts hsh hact] at h
        exact ih _ _ h
      | cons a ar =>
        cases a with
        | transfer dep =>
          by_cases hm : (t.receiverId, t.nonce) ∈ st.txNonces
          · rw [processTxs_cons_replay E shard st bt t ts dep ar hsh hact hm] at h
            exact ih _ _ h
          · rw [processTxs_cons_fresh E shard st bt t ts dep ar hsh hact hm] at h
            exact ih _ _ h
        | other =>
          rw [processTxs_cons_other E shard st bt t ts ar hsh hact] at h
          exact absurd h (by simp)

theorem applyTransferStep_no_dup (E : Ext) (shard gp : Nat) (acc : TAcc)
    (t : Transfer) : applyTransferStep E shard gp acc t ≠ .error .dupReceipt := by
  intro h
  cases hd : debitResult E shard acc.st t with
  | none =>
    rw [applyTransferStep_dropped E shard gp acc t hd] at h
    exact absurd h (by simp)
  | some st1 =>
    by_cases hr : E.shardOf t.receiver = shard
    · rw [applyTransferStep_ok_local E shard gp acc t st1 hd hr] at h
      exact absurd h (by simp)
    · by_cases hz : t.nonce = 0
      · rw [applyTransferStep_nonce_zero E shard gp acc t st1 hd hr hz] at h
        exact absurd h (by simp)
      · rw [applyTransferStep_ok_cross E shard gp acc t st1 hd hr hz] at h
        exact absurd h (by simp)

theorem applyTransfers_no_dup (E : Ext) (shard gp : Nat) :
    ∀ (L : List Transfer) (acc : TAcc),
    applyTransfers E shard gp acc L ≠ .error .dupReceipt := by
  intro L
  induction L with
  | nil =>
    intro acc h
    simp [applyTransfers] at h
  | cons t ts ih =>
    intro acc h
    simp only [applyTransfers] at h
    cases hstep : applyTransferStep E shard gp acc t with
    | error p =>
      rw [hstep] at h
      simp only [Except.error.injEq] at h
      exact applyTransferStep_no_dup E shard gp acc t (hstep.trans (by rw [h]))
    | ok acc2 =>
      rw [hstep] at h
      exact ih acc2 h

/-- c3 amended: a call whose incoming receipts contain an id already in the loaded
snapshot's applied-receipt-id set always aborts fatally, never silently accepting
the duplicate; and when no incoming id is in that set AND the incoming ids are
pairwise distinct (the claim omits the second condition, which a list repeating one
fresh receipt violates), the duplicate-receipt panic is unreachable. -/
theorem c3_dup_receipt (E : Ext) (shard gp : Nat) (st : KVState)
    (receipts : List KVReceipt) (txs : List KVTx) :
    ((∃ r ∈ receipts, r.receiptId ∈ st.receiptNonces) →
      isPanic (applyChunkCore E shard gp st receipts txs) = true) ∧
    ((∀ r ∈ receipts, r.receiptId ∉ st.receiptNonces) →
      receipts.Pairwise (fun a b => a.receiptId ≠ b.receiptId) →
      applyChunkCore E shard gp st receipts txs ≠ .error .dupReceipt) := by
  constructor
  · intro hdup
    obtain ⟨p, hp⟩ := processReceipts_dup_panics E shard receipts st [] hdup
    unfold applyChunkCore
    rw [hp]
    rfl
  · intro hfresh hpw h
    unfold applyChunkCore at h
    cases hr : processReceipts E shard st [] receipts with
    | error p =>
      rw [hr] at h
      simp only [Except.error.injEq] at h
      exact processReceipts_fresh_no_dup E shard receipts st [] hfresh hpw
        (hr.trans (by rw [h]))
    | ok pr =>
      obtain ⟨st1, bt1⟩ := pr
      rw [hr] at h
      have h2 : (match processTxs E shard st1 bt1 txs with
        | .error p => (Except.error p : Except PanicKind TAcc)
        | .ok (st2, bt) => applyTransfers E shard gp ⟨st2, [], []⟩ bt) =
          .error .dupReceipt := h
      cases ht : processTxs E shard st1 bt1 txs with
      | error p =>
        rw [ht] at h2
        simp only [Except.error.injEq] at h2
        exact processTxs_no_dup E shard txs st1 bt1 (ht.trans (by rw [h2]))
      | ok pr2 =>
        obtain ⟨st2, bt⟩ := pr2
        rw [ht] at h2
        exact applyTransfers_no_dup E shard gp bt ⟨st2, [], []⟩ h2

/-- The receipt used in concrete duplicate-receipt scenarios. -/
def c3r : KVReceipt := ⟨1, 2, 5, 1, 0, .action, [.transfer 1]⟩

/-- c3 counterexample: the snapshot's applied-receipt-id set is empty — so no
incoming receipt id is "already present" — yet a list containing the same fresh
receipt twice still reaches the duplicate-receipt panic, refuting the claimed
unreachability under the claim's precondition alone. -/
theorem c3_counterexample :
    (⟨[], [], []⟩ : KVState).receiptNonces = [] ∧
    applyChunkCore cE 0 0 ⟨[], [], []⟩ [c3r, c3r] [] = .error .dupReceipt :=
  ⟨rfl, rfl⟩

theorem c3_dup_receipt_witness :
    isPanic (applyChunkCore cE 0 0 ⟨[], [5], []⟩ [c3r] []) = true ∧
    applyChunkCore cE 0 0 ⟨[], [], []⟩ [c3r] [] ≠ .error .dupReceipt :=
  ⟨(c3_dup_receipt cE 0 0 ⟨[], [5], []⟩ [c3r] []).1 (by decide),
   (c3_dup_receipt cE 0 0 ⟨[], [], []⟩ [c3r] []).2 (by decide) (by decide)⟩

theorem processTxs_acc (E : Ext) (shard : Nat) :
    ∀ (txs : List KVTx) (st : KVState) (bt : List Transfer),
    processTxs E shard st bt txs =
      match processTxs E shard st [] txs with
      | .ok (st2, bt2) => .ok (st2, bt ++ bt2)
      | .error p => .error p := by
  intro txs
  induction txs with
  | nil =>
    intro st bt
    simp [processTxs]
  | cons t ts ih =>
    intro st bt
    by_cases hs : E.shardOf t.signerId ≠ shard
    · rw [processTxs_cons_shardAssert E shard st bt t ts hs,
        processTxs_cons_shardAssert E shard st [] t ts hs]
    · have hsh : E.shardOf t.signerId = shard := by
        by_cases h2 : E.shardOf t.signerId = shard
        · exact h2
        · exact absurd h2 hs
      cases hact : t.actions with
      | nil =>
        rw [processTxs_skip_empty E shard st bt t ts hsh hact,
          processTxs_skip_empty E shard st [] t ts hsh hact]
        exact ih st bt
      | cons a ar =>
        cases a with
        | transfer dep =>
          by_cases hm : (t.receiverId, t.nonce) ∈ st.txNonces
          · rw [processTxs_cons_replay E shard st bt t ts dep ar hsh hact hm,
              processTxs_cons_replay E shard st [] t ts dep ar hsh hact hm,
              ih st (bt ++ [(⟨t.hash, t.signerId, t.receiverId, 0, t.nonce⟩ : Transfer)]),
              ih st ([] ++ [(⟨t.hash, t.signerId, t.receiverId, 0, t.nonce⟩ : Transfer)])]
            cases hres : processTxs E shard st [] ts with
            | error p => simp [hres]
            | ok pr =>
              obtain ⟨st2, bt2⟩ := pr
              simp [hres]
          · rw [processTxs_cons_fresh E shard st bt t ts dep ar hsh hact hm,
              processTxs_cons_fresh E shard st [] t ts dep ar hsh hact hm,
              ih { st with txNonces := setInsert st.txNonces (t.receiverId, t.nonce) }
                (bt ++ [(⟨t.hash, t.signerId, t.receiverId, dep, t.nonce⟩ : Transfer)]),
              ih { st with txNonces := setInsert st.txNonces (t.receiverId, t.nonce) }
                ([] ++ [(⟨t.hash, t.signerId, t.receiverId, dep, t.nonce⟩ : Transfer)])]
            cases hres : processTxs E shard
                { st with txNonces := setInsert st.txNonces (t.receiverId, t.nonce) }
                [] ts with
            | error p => simp [hres]
            | ok pr =>
              obtain ⟨st2, bt2⟩ := pr
              simp [hres]
        | other =>
          rw [processTxs_cons_other E shard st bt t ts ar hsh hact,
            processTxs_cons_other E shard st [] t ts ar hsh hact]

theorem processTxs_state (E : Ext) (shard : Nat) :
    ∀ (txs : List KVTx) (st st2 : KVState) (bt bt2 : List Transfer),
    processTxs E shard st bt txs = .ok (st2, bt2) →
    st2.amounts = st.amounts ∧ st2.receiptNonces = st.receiptNonces ∧
    ∀ p, p ∈ st.txNonces → p ∈ st2.txNonces := by
  intro txs
  induction txs with
  | nil =>
    intro st st2 bt bt2 h
    simp only [processTxs, Except.ok.injEq, Prod.mk.injEq] at h
    rw [← h.1]
    exact ⟨rfl, rfl, fun p hp => hp⟩
  | cons t ts ih =>
    intro st st2 bt bt2 h
    by_cases hs : E.shardOf t.signerId ≠ shard
    · rw [processTxs_cons_shardAssert E shard st bt t ts hs] at h
      exact absurd h (by simp)
    · have hsh : E.shardOf t.signerId = shard := by
        by_cases h2 : E.shardOf t.signerId = shard
        · exact h2
        · exact absurd h2 hs
      cases hact : t.actions with
      | nil =>
        rw [processTxs_skip_empty E shard st bt t ts hsh hact] at h
        exact ih st st2 bt bt2 h
      | cons a ar =>
        cases a with
        | transfer dep =>
          by_cases hm : (t.receiverId, t.nonce) ∈ st.txNonces
          · rw [processTxs_cons_replay E shard st bt t ts dep ar hsh hact hm] at h
            exact ih st st2 _ bt2 h
          · rw [processTxs_cons_fresh E shard st bt t ts dep ar hsh hact hm] at h
            obtain ⟨h1, h2, h3⟩ := ih _ st2 _ bt2 h
            exact ⟨h1, h2, fun p hp => h3 p (mem_setInsert_of_mem _ hp)⟩
        | other =>
          rw [processTxs_cons_other E shard st bt t ts ar hsh hact] at h
          exact absurd h (by simp)

theorem debitResult_no_entry (E : Ext) (shard : Nat) (st : KVState) (t : Transfer)
    (hlocal : E.shardOf t.sender = shard)
    (hl : mapLookup st.amounts t.sender = none) :
    debitResult E shard st t = none := by
  unfold debitResult
  rw [if_neg (by simp [hlocal]), hl]

theorem debitResult_isSome_mono (E : Ext) (shard : Nat) (st : KVState) (t : Transfer)
    (st1 : KVState) (hd : debitResult E shard st t = some st1) :
    (∀ a, (mapLookup st.amounts a).isSome = true →
      (mapLookup st1.amounts a).isSome = true) ∧
    st1.receiptNonces = st.receiptNonces ∧ st1.txNonces = st.txNonces := by
  unfold debitResult at hd
  by_cases hs : E.shardOf t.sender ≠ shard
  · rw [if_pos hs] at hd
    injection hd with hd
    subst hd
    exact ⟨fun a ha => ha, rfl, rfl⟩
  · rw [if_neg hs] at hd
    cases hl : mapLookup st.amounts t.sender with
    | none =>
      rw [hl] at hd
      exact absurd (show (none : Option KVState) = some st1 from hd) (by simp)
    | some b =>
      rw [hl] at hd
      have hd2 : (if t.amount ≤ b then
          some { st with amounts := mapInsert st.amounts t.sender (b - t.amount) }
          else none) = some st1 := hd
      by_cases hle : t.amount ≤ b
      · rw [if_pos hle] at hd2
        injection hd2 with hd2
        subst hd2
        refine ⟨fun a ha => ?_, rfl, rfl⟩
        show (mapLookup (mapInsert st.amounts t.sender (b - t.amount)) a).isSome = true
        rw [mapLookup_mapInsert]
        by_cases hx : a = t.sender
        · rw [if_pos hx]
          rfl
        · rw [if_neg hx]
          exact ha
      · rw [if_neg hle] at hd2
        exact absurd hd2 (by simp)

theorem applyTransferStep_facts (E : Ext) (shard gp : Nat) (acc acc2 : TAcc)
    (t : Transfer) (h : applyTransferStep E shard gp acc t = .ok acc2) :
    (∀ a, (mapLookup acc.st.amounts a).isSome = true →
      (mapLookup acc2.st.amounts a).isSome = true) ∧
    (∃ suf, acc2.outcomes = acc.outcomes ++ suf) := by
  cases hd : debitResult E shard acc.st t with
  | none =>
    rw [applyTransferStep_dropped E shard gp acc t hd] at h
    injection h with h
    subst h
    exact ⟨fun a ha => ha, [], by simp⟩
  | some st1 =>
    have hmono := (debitResult_isSome_mono E shard acc.st t st1 hd).1
    by_cases hr : E.shardOf t.receiver = shard
    · rw [applyTransferStep_ok_local E shard gp acc t st1 hd hr] at h
      injection h with h
      subst h
      refine ⟨fun a ha => ?_, [⟨t.hash, [], t.receiver⟩], rfl⟩
      show (mapLookup (mapInsert st1.amounts t.receiver
        (effBal st1.amounts t.receiver + t.amount)) a).isSome = true
      rw [mapLookup_mapInsert]
      by_cases hx : a = t.receiver
      · rw [if_pos hx]
        rfl
      · rw [if_neg hx]
        exact hmono a ha
    · by_cases hz : t.nonce = 0
      · rw [applyTransferStep_nonce_zero E shard gp acc t st1 hd hr hz] at h
        exact absurd h (by simp)
      · rw [applyTransferStep_ok_cross E shard gp acc t st1 hd hr hz] at h
        injection h with h
        subst h
        exact ⟨hmono, [⟨t.hash, [E.rget (mkOutReceipt E gp t)], t.receiver⟩], rfl⟩

theorem applyTransfers_facts (E : Ext) (shard gp : Nat) :
    ∀ (L : List Transfer) (acc out : TAcc),
    applyTransfers E shard gp acc L = .ok out →
    (∀ a, (mapLookup acc.st.amounts a).isSome = true →
      (mapLookup out.st.amounts a).isSome = true) ∧
    (∃ suf, out.outcomes = acc.outcomes ++ suf) := by
  intro L
  induction L with
  | nil =>
    intro acc out h
    simp only [applyTransfers, Except.ok.injEq] at h
    subst h
    exact ⟨fun a ha => ha, [], by simp⟩
  | cons t ts ih =>
    intro acc out h
    simp only [applyTransfers] at h
    cases hstep : applyTransferStep E shard gp acc t with
    | error p =>
      rw [hstep] at h
      exact absurd h (by simp)
    | ok acc2 =>
      rw [hstep] at h
      have h2 : applyTransfers E shard gp acc2 ts = .ok out := h
      obtain ⟨hm1, suf1, hsuf1⟩ := applyTransferStep_facts E shard gp acc acc2 t hstep
      obtain ⟨hm2, suf2, hsuf2⟩ := ih acc2 out h2
      refine ⟨fun a ha => hm2 a (hm1 a ha), suf1 ++ suf2, ?_⟩
      rw [hsuf2, hsuf1, List.append_assoc]

theorem applyTransferStep_relam_sym (E : Ext) (shard gp : Nat)
    (accA accB accA2 : TAcc) (t : Transfer) (stA1 stB1 : KVState)
    (hdA : debitResult E shard accA.st t = some stA1)
    (hdB : debitResult E shard accB.st t = some stB1)
    (heff1 : ∀ a, effBal stA1.amounts a = effBal stB1.amounts a)
    (hsome1 : ∀ a, (mapLookup stB1.amounts a).isSome = true →
      (mapLookup stA1.amounts a).isSome = true)
    (hA : applyTransferStep E shard gp accA t = .ok accA2) :
    ∃ accB2, applyTransferStep E shard gp accB t = .ok accB2 ∧
      (∀ a, effBal accA2.st.amounts a = effBal accB2.st.amounts a) ∧
      (∀ a, (mapLookup accB2.st.amounts a).isSome = true →
        (mapLookup accA2.st.amounts a).isSome = true) := by
  by_cases hr : E.shardOf t.receiver = shard
  · rw [applyTransferStep_ok_local E shard gp accA t stA1 hdA hr] at hA
    injection hA with hA
    subst hA
    refine ⟨_, applyTransferStep_ok_local E shard gp accB t stB1 hdB hr, ?_, ?_⟩
    · intro a
      show effBal (mapInsert stA1.amounts t.receiver
          (effBal stA1.amounts t.receiver + t.amount)) a =
        effBal (mapInsert stB1.amounts t.receiver
          (effBal stB1.amounts t.receiver + t.amount)) a
      rw [effBal_mapInsert, effBal_mapInsert]
      by_cases hx : a = t.receiver
      · rw [if_pos hx, if_pos hx, heff1]
      · rw [if_neg hx, if_neg hx]
        exact heff1 a
    · intro a ha
      have ha2 : (mapLookup (mapInsert stB1.amounts t.receiver
          (effBal stB1.amounts t.receiver + t.amount)) a).isSome = true := ha
      show (mapLookup (mapInsert stA1.amounts t.receiver
          (effBal stA1.amounts t.receiver + t.amount)) a).isSome = true
      rw [mapLookup_mapInsert] at ha2 ⊢
      by_cases hx : a = t.receiver
      · rw [if_pos hx]
        rfl
      · rw [if_neg hx] at ha2 ⊢
        exact hsome1 a ha2
  · by_cases hz : t.nonce = 0
    · rw [applyTransferStep_nonce_zero E shard gp accA t stA1 hdA hr hz] at hA
      exact absurd hA (by simp)
    · rw [applyTransferStep_ok_cross E shard gp accA t stA1 hdA hr hz] at hA
      injection hA with hA
      subst hA
      exact ⟨_, applyTransferStep_ok_cross E shard gp accB t stB1 hdB hr hz,
        heff1, hsome1⟩

theorem debitResult_none_of_rel (E : Ext) (shard : Nat) (stA stB : KVState)
    (t : Transfer)
    (heff : ∀ a, effBal stA.amounts a = effBal stB.amounts a)
    (hsome : ∀ a, (mapLookup stB.amounts a).isSome = true →
      (mapLookup stA.amounts a).isSome = true)
    (hdA : debitResult E shard stA t = none) :
    debitResult E shard stB t = none := by
  by_cases hs : E.shardOf t.sender ≠ shard
  · rw [debitResult_nonlocal E shard stA t hs] at hdA
    exact absurd hdA (by simp)
  · have hsh : E.shardOf t.sender = shard := by
      by_cases h2 : E.shardOf t.sender = shard
      · exact h2
      · exact absurd h2 hs
    cases lkB : mapLookup stB.amounts t.sender with
    | none => exact debitResult_no_entry E shard stB t hsh lkB
    | some bB =>
      have hsA : (mapLookup stA.amounts t.sender).isSome = true :=
        hsome t.sender (by rw [lkB]; rfl)
      cases lkA : mapLookup stA.amounts t.sender with
      | none =>
        rw [lkA] at hsA
        simp at hsA
      | some bA =>
        have hab : bA = bB := by
          have h := heff t.sender
          unfold effBal at h
          rw [lkA, lkB] at h
          simpa using h
        subst hab
        have hin : ¬ t.amount ≤ bA := by
          intro hle
          rw [debitResult_debit E shard stA t bA hsh lkA hle] at hdA
          exact absurd hdA (by simp)
        refine debitResult_dropped E shard stB t hsh (fun b hb => ?_)
        rw [lkB] at hb
        injection hb with hb
        subst hb
        omega

theorem applyTransferStep_relam (E : Ext) (shard gp : Nat) (accA accB accA2 : TAcc)
    (t : Transfer)
    (heff : ∀ a, effBal accA.st.amounts a = effBal accB.st.amounts a)
    (hsome : ∀ a, (mapLookup accB.st.amounts a).isSome = true →
      (mapLookup accA.st.amounts a).isSome = true)
    (hA : applyTransferStep E shard gp accA t = .ok accA2) :
    ∃ accB2, applyTransferStep E shard gp accB t = .ok accB2 ∧
      (∀ a, effBal accA2.st.amounts a = effBal accB2.st.amounts a) ∧
      (∀ a, (mapLookup accB2.st.amounts a).isSome = true →
        (mapLookup accA2.st.amounts a).isSome = true) := by
  cases hdA : debitResult E shard accA.st t with
  | none =>
    rw [applyTransferStep_dropped E shard gp accA t hdA] at hA
    injection hA with hA
    subst hA
    have hdB := debitResult_none_of_rel E shard accA.st accB.st t heff hsome hdA
    exact ⟨accB, applyTransferStep_dropped E shard gp accB t hdB, heff, hsome⟩
  | some stA1 =>
    by_cases hs : E.shardOf t.sender ≠ shard
    · have h1 : accA.st = stA1 := by
        have h2 := (debitResult_nonlocal E shard accA.st t hs).symm.trans hdA
        exact Option.some.inj h2
      refine applyTransferStep_relam_sym E shard gp accA accB accA2 t stA1 accB.st
        hdA (debitResult_nonlocal E shard accB.st t hs) ?_ ?_ hA
      · intro a
        rw [← h1]
        exact heff a
      · intro a ha
        rw [← h1]
        exact hsome a ha
    · have hsh : E.shardOf t.sender = shard := by
        by_cases h2 : E.shardOf t.sender = shard
        · exact h2
        · exact absurd h2 hs
      cases lkA : mapLookup accA.st.amounts t.sender with
      | none =>
        rw [debitResult_no_entry E shard accA.st t hsh lkA] at hdA
        exact absurd hdA (by simp)
      | some bA =>
        by_cases hle : t.amount ≤ bA
        · have hdd := debitResult_debit E shard accA.st t bA hsh lkA hle
          have hstA1 : { accA.st with
              amounts := mapInsert accA.st.amounts t.sender (bA - t.amount) } = stA1 :=
            Option.some.inj (hdd.symm.trans hdA)
          cases lkB : mapLookup accB.st.amounts t.sender with
          | some bB =>
            have hab : bB = bA := by
              have h := heff t.sender
              unfold effBal at h
              rw [lkA, lkB] at h
              simpa using h.symm
            subst hab
            refine applyTransferStep_relam_sym E shard gp accA accB accA2 t stA1
              { accB.st with
                amounts := mapInsert accB.st.amounts t.sender (bB - t.amount) }
              hdA (debitResult_debit E shard accB.st t bB hsh lkB hle)
              ?_ ?_ hA
            · intro a
              rw [← hstA1]
              show effBal (mapInsert accA.st.amounts t.sender (bB - t.amount)) a =
                effBal (mapInsert accB.st.amounts t.sender (bB - t.amount)) a
              rw [effBal_mapInsert, effBal_mapInsert]
              by_cases hx : a = t.sender
              · rw [if_pos hx, if_pos hx]
              · rw [if_neg hx, if_neg hx]
                exact heff a
            · intro a ha
              have ha2 : (mapLookup (mapInsert accB.st.amounts t.sender
                  (bB - t.amount)) a).isSome = true := ha
              rw [← hstA1]
              show (mapLookup (mapInsert accA.st.amounts t.sender
                (bB - t.amount)) a).isSome = true
              rw [mapLookup_mapInsert] at ha2 ⊢
              by_cases hx : a = t.sender
              · rw [if_pos hx]
                rfl
              · rw [if_neg hx] at ha2 ⊢
                exact hsome a ha2
          | none =>
            have hbA0 : bA = 0 := by
              have h := heff t.sender
              unfold effBal at h
              rw [lkA, lkB] at h
              simpa using h
            have ham : t.amount = 0 := by omega
            have hdB := debitResult_no_entry E shard accB.st t hsh lkB
            have heff1 : ∀ a, effBal stA1.amounts a = effBal accB.st.amounts a := by
              intro a
              rw [← hstA1]
              show effBal (mapInsert accA.st.amounts t.sender (bA - t.amount)) a =
                effBal accB.st.amounts a
              rw [effBal_mapInsert]
              by_cases hx : a = t.sender
              · rw [if_pos hx, hx]
                unfold effBal
                rw [lkB, hbA0, ham]
                rfl
              · rw [if_neg hx]
                exact heff a
            have hsome1 : ∀ a, (mapLookup accB.st.amounts a).isSome = true →
                (mapLookup stA1.amounts a).isSome = true := by
              intro a ha
              rw [← hstA1]
              show (mapLookup (mapInsert accA.st.amounts t.sender
                (bA - t.amount)) a).isSome = true
              rw [mapLookup_mapInsert]
              by_cases hx : a = t.sender
              · rw [if_pos hx]
                rfl
              · rw [if_neg hx]
                exact hsome a ha
            by_cases hr : E.shardOf t.receiver = shard
            · rw [applyTransferStep_ok_local E shard gp accA t stA1 hdA hr] at hA
              injection hA with hA
              subst hA
              refine ⟨accB, applyTransferStep_dropped E shard gp accB t hdB, ?_, ?_⟩
              · intro a
                show effBal (mapInsert stA1.amounts t.receiver
                    (effBal stA1.amounts t.receiver + t.amount)) a =
                  effBal accB.st.amounts a
                rw [effBal_mapInsert]
                by_cases hx : a = t.receiver
                · rw [if_pos hx, ham, Nat.add_zero, hx]
                  exact heff1 t.receiver
                · rw [if_neg hx]
                  exact heff1 a
              · intro a ha
                show (mapLookup (mapInsert stA1.amounts t.receiver
                    (effBal stA1.amounts t.receiver + t.amount)) a).isSome = true
                rw [mapLookup_mapInsert]
                by_cases hx : a = t.receiver
                · rw [if_pos hx]
                  rfl
                · rw [if_neg hx]
                  exact hsome1 a ha
            · by_cases hz : t.nonce = 0
              · rw [applyTransferStep_nonce_zero E shard gp accA t stA1 hdA hr hz] at hA
                exact absurd hA (by simp)
              · rw [applyTransferStep_ok_cross E shard gp accA t stA1 hdA hr hz] at hA
                injection hA with hA
                subst hA
                exact ⟨accB, applyTransferStep_dropped E shard gp accB t hdB,
                  heff1, hsome1⟩
        · have hnone : debitResult E shard accA.st t = none := by
            refine debitResult_dropped E shard accA.st t hsh (fun b hb => ?_)
            rw [lkA] at hb
            injection hb with hb
            subst hb
            omega
          rw [hnone] at hdA
          exact absurd hdA (by simp)

theorem applyTransfers_relam (E : Ext) (shard gp : Nat) :
    ∀ (L : List Transfer) (accA accB outA : TAcc),
    (∀ a, effBal accA.st.amounts a = effBal accB.st.amounts a) →
    (∀ a, (mapLookup accB.st.amounts a).isSome = true →
      (mapLookup accA.st.amounts a).isSome = true) →
    applyTransfers E shard gp accA L = .ok outA →
    ∃ outB, applyTransfers E shard gp accB L = .ok outB ∧
      ∀ a, effBal outA.st.amounts a = effBal outB.st.amounts a := by
  intro L
  induction L with
  | nil =>
    intro accA accB outA heff hsome h
    simp only [applyTransfers, Except.ok.injEq] at h
    subst h
    exact ⟨accB, rfl, heff⟩
  | cons t ts ih =>
    intro accA accB outA heff hsome h
    simp only [applyTransfers] at h
    cases hstepA : applyTransferStep E shard gp accA t with
    | error p =>
      rw [hstepA] at h
      exact absurd (show (Except.error p : Except PanicKind TAcc) = .ok outA from h)
        (by simp)
    | ok accA2 =>
      rw [hstepA] at h
      have h2 : applyTransfers E shard gp accA2 ts = .ok outA := h
      obtain ⟨accB2, hstepB, heff2, hsome2⟩ :=
        applyTransferStep_relam E shard gp accA accB accA2 t heff hsome hstepA
      obtain ⟨outB, hB, heffO⟩ := ih accA2 accB2 outA heff2 hsome2 h2
      refine ⟨outB, ?_, heffO⟩
      simp only [applyTransfers]
      rw [hstepB]
      exact hB

theorem applyChunkCore_ok_inv (E : Ext) (shard gp : Nat) (st : KVState)
    (receipts : List KVReceipt) (txs : List KVTx) (out : TAcc)
    (h : applyChunkCore E shard gp st receipts txs = .ok out) :
    ∃ st1 bt1 st2 bt,
      processReceipts E shard st [] receipts = .ok (st1, bt1) ∧
      processTxs E shard st1 bt1 txs = .ok (st2, bt) ∧
      applyTransfers E shard gp ⟨st2, [], []⟩ bt = .ok out := by
  unfold applyChunkCore at h
  cases hr : processReceipts E shard st [] receipts with
  | error p =>
    rw [hr] at h
    exact absurd (show (Except.error p : Except PanicKind TAcc) = .ok out from h)
      (by simp)
  | ok pr =>
    obtain ⟨st1, bt1⟩ := pr
    rw [hr] at h
    have h2 : (match processTxs E shard st1 bt1 txs with
      | .error p => (Except.error p : Except PanicKind TAcc)
      | .ok (st2, bt) => applyTransfers E shard gp ⟨st2, [], []⟩ bt) = .ok out := h
    cases ht : processTxs E shard st1 bt1 txs with
    | error p =>
      rw [ht] at h2
      exact absurd (show (Except.error p : Except PanicKind TAcc) = .ok out from h2)
        (by simp)
    | ok pr2 =>
      obtain ⟨st2, bt⟩ := pr2
      rw [ht] at h2
      exact ⟨st1, bt1, st2, bt, rfl, ht, h2⟩

theorem applyChunkCore_build (E : Ext) (shard gp : Nat) (st st1 st2 : KVState)
    (receipts : List KVReceipt) (txs : List KVTx) (bt1 bt : List Transfer)
    (hr : processReceipts E shard st [] receipts = .ok (st1, bt1))
    (ht : processTxs E shard st1 bt1 txs = .ok (st2, bt)) :
    applyChunkCore E shard gp st receipts txs =
      applyTransfers E shard gp ⟨st2, [], []⟩ bt := by
  unfold applyChunkCore
  rw [hr]
  show (match processTxs E shard st1 bt1 txs with
    | .error p => (Except.error p : Except PanicKind TAcc)
    | .ok (st2, bt) => applyTransfers E shard gp ⟨st2, [], []⟩ bt) = _
  rw [ht]

/-- Evaluating the zero-amount transfer queued for a replayed (receiver, nonce):
when the signer has a balance entry the step succeeds, records an outcome carrying
the transaction hash, and leaves every effective balance (and entry-existence,
upward) unchanged. -/
theorem replay_step (E : Ext) (shard gp : Nat) (acc : TAcc) (h sgn rcv non bM : Nat)
    (hshard : E.shardOf sgn = shard)
    (lk : mapLookup acc.st.amounts sgn = some bM)
    (hnz : non ≠ 0) :
    ∃ acc2, applyTransferStep E shard gp acc ⟨h, sgn, rcv, 0, non⟩ = .ok acc2 ∧
      (∀ a, effBal acc2.st.amounts a = effBal acc.st.amounts a) ∧
      (∀ a, (mapLookup acc.st.amounts a).isSome = true →
        (mapLookup acc2.st.amounts a).isSome = true) ∧
      ∃ rids, acc2.outcomes = acc.outcomes ++ [⟨h, rids, rcv⟩] := by
  have hdd := debitResult_debit E shard acc.st ⟨h, sgn, rcv, 0, non⟩ bM hshard lk
    (Nat.zero_le bM)
  have hself : mapInsert acc.st.amounts sgn (bM - 0) = acc.st.amounts := by
    rw [Nat.sub_zero]
    exact mapInsert_self lk
  have hdd2 : debitResult E shard acc.st ⟨h, sgn, rcv, 0, non⟩ = some acc.st := by
    rw [hdd]
    show some ({ acc.st with amounts := mapInsert acc.st.amounts sgn (bM - 0) }) = _
    rw [hself]
  by_cases hr : E.shardOf rcv = shard
  · rw [applyTransferStep_ok_local E shard gp acc ⟨h, sgn, rcv, 0, non⟩ acc.st hdd2 hr]
    refine ⟨_, rfl, ?_, ?_, [], rfl⟩
    · intro a
      show effBal (mapInsert acc.st.amounts rcv (effBal acc.st.amounts rcv + 0)) a =
        effBal acc.st.amounts a
      rw [effBal_mapInsert]
      by_cases hx : a = rcv
      · rw [if_pos hx, Nat.add_zero, hx]
      · rw [if_neg hx]
    · intro a ha
      show (mapLookup (mapInsert acc.st.amounts rcv
        (effBal acc.st.amounts rcv + 0)) a).isSome = true
      rw [mapLookup_mapInsert]
      by_cases hx : a = rcv
      · rw [if_pos hx]
        rfl
      · rw [if_neg hx]
        exact ha
  · rw [applyTransferStep_ok_cross E shard gp acc ⟨h, sgn, rcv, 0, non⟩ acc.st hdd2 hr hnz]
    exact ⟨_, rfl, fun a => rfl, fun a ha => ha,
      [E.rget (mkOutReceipt E gp ⟨h, sgn, rcv, 0, non⟩)], rfl⟩

/-- c2 amended: a replayed transaction — (receiver, nonce) already in the
snapshot's tx_nonces, first action a Transfer, nonzero nonce, signer holding a
balance entry — yields a recorded execution outcome for its hash, and the call's
effective balances equal those of the same call without that transaction. A signer
without a balance entry is silently dropped instead (see the counterexample), so
the unconditional claim fails. -/
theorem c2_replayed_tx (E : Ext) (shard gp : Nat) (st : KVState)
    (receipts : List KVReceipt) (txs1 txs2 : List KVTx) (t : KVTx)
    (dep b : Nat) (ar : List RAction) (outA : TAcc)
    (hseen : (t.receiverId, t.nonce) ∈ st.txNonces)
    (hact : t.actions = .transfer dep :: ar)
    (hshard : E.shardOf t.signerId = shard)
    (hnz : t.nonce ≠ 0)
    (hentry : mapLookup st.amounts t.signerId = some b)
    (hA : applyChunkCore E shard gp st receipts (txs1 ++ t :: txs2) = .ok outA) :
    outA.outcomes.any (fun o => decide (o.id = t.hash)) = true ∧
    isPanic (applyChunkCore E shard gp st receipts (txs1 ++ txs2)) = false ∧
    ∀ outB, applyChunkCore E shard gp st receipts (txs1 ++ txs2) = .ok outB →
      ∀ a, effBal outA.st.amounts a = effBal outB.st.amounts a := by
  obtain ⟨st1, btR, stF, btA, hr, ht, hT⟩ :=
    applyChunkCore_ok_inv E shard gp st receipts (txs1 ++ t :: txs2) outA hA
  obtain ⟨hst1tx, hst1am⟩ :=
    processReceipts_txNonces_amounts E shard receipts st st1 [] btR hr
  rw [processTxs_append] at ht
  cases hM : processTxs E shard st1 btR txs1 with
  | error p =>
    rw [hM] at ht
    exact absurd (show (Except.error p :
      Except PanicKind (KVState × List Transfer)) = .ok (stF, btA) from ht) (by simp)
  | ok prM =>
    obtain ⟨stM, btM⟩ := prM
    rw [hM] at ht
    have ht2 : processTxs E shard stM btM (t :: txs2) = .ok (stF, btA) := ht
    obtain ⟨hMam, hMrn, hMtx⟩ := processTxs_state E shard txs1 st1 stM btR btM hM
    have hseenM : (t.receiverId, t.nonce) ∈ stM.txNonces := by
      apply hMtx
      rw [hst1tx]
      exact hseen
    rw [processTxs_cons_replay E shard stM btM t txs2 dep ar hshard hact hseenM,
      processTxs_acc E shard txs2 stM
        (btM ++ [(⟨t.hash, t.signerId, t.receiverId, 0, t.nonce⟩ : Transfer)])] at ht2
    cases hacc : processTxs E shard stM [] txs2 with
    | error p =>
      rw [hacc] at ht2
      exact absurd (show (Except.error p :
        Except PanicKind (KVState × List Transfer)) = .ok (stF, btA) from ht2) (by simp)
    | ok pr2 =>
      obtain ⟨stF2, bt2⟩ := pr2
      rw [hacc] at ht2
      have ht3 : (Except.ok (stF2,
          (btM ++ [(⟨t.hash, t.signerId, t.receiverId, 0, t.nonce⟩ : Transfer)]) ++ bt2) :
          Except PanicKind (KVState × List Transfer)) = .ok (stF, btA) := ht2
      simp only [Except.ok.injEq, Prod.mk.injEq] at ht3
      obtain ⟨hFeq, hbtAeq⟩ := ht3
      subst hFeq
      subst hbtAeq
      obtain ⟨hFam, hFrn, hFtx⟩ := processTxs_state E shard txs2 stM stF2 [] bt2 hacc
      rw [List.append_assoc] at hT
      rw [applyTransfers_append E shard gp btM
        ([(⟨t.hash, t.signerId, t.receiverId, 0, t.nonce⟩ : Transfer)] ++ bt2)] at hT
      cases hAM : applyTransfers E shard gp ⟨stF2, [], []⟩ btM with
      | error p =>
        rw [hAM] at hT
        exact absurd (show (Except.error p : Except PanicKind TAcc) = .ok outA from hT)
          (by simp)
      | ok accM =>
        rw [hAM] at hT
        have hT5 : (match applyTransferStep E shard gp accM
            ⟨t.hash, t.signerId, t.receiverId, 0, t.nonce⟩ with
          | .error p => (Except.error p : Except PanicKind TAcc)
          | .ok a2 => applyTransfers E shard gp a2 bt2) = .ok outA := hT
        have hsomeM : (mapLookup accM.st.amounts t.signerId).isSome = true := by
          have h0 : (mapLookup (⟨stF2, [], []⟩ : TAcc).st.amounts t.signerId).isSome
              = true := by
            show (mapLookup stF2.amounts t.signerId).isSome = true
            rw [hFam, hMam, hst1am, hentry]
            rfl
          exact (applyTransfers_facts E shard gp btM ⟨stF2, [], []⟩ accM hAM).1
            t.signerId h0
        cases lkM : mapLookup accM.st.amounts t.signerId with
        | none =>
          rw [lkM] at hsomeM
          simp at hsomeM
        | some bM =>
          obtain ⟨accZ, hstepZ, heffZ, hsomeZ, rids, houtZ⟩ :=
            replay_step E shard gp accM t.hash t.signerId t.receiverId t.nonce bM
              hshard lkM hnz
          rw [hstepZ] at hT5
          have hT6 : applyTransfers E shard gp accZ bt2 = .ok outA := hT5
          obtain ⟨outB, hB, heffO⟩ :=
            applyTransfers_relam E shard gp bt2 accZ accM outA heffZ hsomeZ hT6
          have hBtx : processTxs E shard st1 btR (txs1 ++ txs2) =
              .ok (stF2, btM ++ bt2) := by
            rw [processTxs_append, hM]
            show processTxs E shard stM btM txs2 = .ok (stF2, btM ++ bt2)
            rw [processTxs_acc E shard txs2 stM btM, hacc]
          have hBrun : applyChunkCore E shard gp st receipts (txs1 ++ txs2) =
              .ok outB := by
            rw [applyChunkCore_build E shard gp st st1 stF2 receipts (txs1 ++ txs2)
              btR (btM ++ bt2) hr hBtx]
            rw [applyTransfers_append E shard gp btM bt2, hAM]
            show applyTransfers E shard gp accM bt2 = .ok outB
            exact hB
          obtain ⟨-, suf, hsuf⟩ := applyTransfers_facts E shard gp bt2 accZ outA hT6
          refine ⟨?_, by rw [hBrun]; rfl, ?_⟩
          · rw [List.any_eq_true]
            refine ⟨⟨t.hash, rids, t.receiverId⟩, ?_, by simp⟩
            rw [hsuf, houtZ]
            simp
          · intro outB2 hB2
            rw [hBrun] at hB2
            injection hB2 with hB2
            subst hB2
            exact heffO

/-- C2 counterexample: a replayed transaction ((2, 7) already in tx_nonces) whose
signer has no balance entry produces NO execution outcome at all — the queued
zero-amount transfer is silently dropped by the missing-entry branch of the
transfer loop — refuting the claim that every replayed transaction records a
zero-value outcome. -/
theorem c2_counterexample :
    ((2 : Nat), (7 : Nat)) ∈ (⟨[], [], [(2, 7)]⟩ : KVState).txNonces ∧
    applyChunkCore cE 0 0 ⟨[], [], [(2, 7)]⟩ []
      [⟨9, 1, 2, 7, [.transfer 5]⟩] =
      .ok ⟨⟨[], [], [(2, 7)]⟩, [], []⟩ :=
  ⟨by decide, rfl⟩

/-- Witness for c2_replayed_tx: the concrete replayed transfer of spec §8 shape —
signer 1 holding 1000, replayed (receiver 2, nonce 7) — yields the outcome with
the transaction's hash and the run without the transaction does not panic. -/
theorem c2_replayed_tx_witness :
    ([(⟨9, [], 2⟩ : Outcome)].any (fun o => decide (o.id = 9)) = true) ∧
    isPanic (applyChunkCore cE 0 0 ⟨[(1, 1000)], [], [(2, 7)]⟩ [] []) = false := by
  have h := c2_replayed_tx cE 0 0 ⟨[(1, 1000)], [], [(2, 7)]⟩ [] [] []
    ⟨9, 1, 2, 7, [.transfer 5]⟩ 5 1000 []
    ⟨⟨[(1, 1000), (2, 0)], [], [(2, 7)]⟩, [⟨9, [], 2⟩], []⟩
    (by decide) rfl rfl (by decide) rfl rfl
  exact ⟨h.1, h.2.1⟩

/-- Borsh length-prefixed encoding of a pair list: the flattened components (the
length prefix is added by `encodeKV`). -/
def encPairs : List (Nat × Nat) → List Nat
  | [] => []
  | (a, b) :: rest => a :: b :: encPairs rest

/-- `borsh::to_vec(&state)`: each of the three collections length-prefixed, in
declaration order (amounts, receipt_nonces, tx_nonces). -/
def encodeKV (s : KVState) : List Nat :=
  s.amounts.length :: (encPairs s.amounts ++
    (s.receiptNonces.length :: (s.receiptNonces ++
      (s.txNonces.length :: encPairs s.txNonces))))

/-- Borsh decoding of `n` pairs from a byte stream, returning the remainder. -/
def takePairs : Nat → List Nat → Option (List (Nat × Nat) × List Nat)
  | 0, rest => some ([], rest)
  | n + 1, a :: b :: rest =>
    match takePairs n rest with
    | some (l, r) => some ((a, b) :: l, r)
    | none => none
  | _ + 1, _ => none

/-- Borsh decoding of `n` scalars from a byte stream, returning the remainder. -/
def takeNats : Nat → List Nat → Option (List Nat × List Nat)
  | 0, rest => some ([], rest)
  | n + 1, a :: rest =>
    match takeNats n rest with
    | some (l, r) => some (a :: l, r)
    | none => none
  | _ + 1, [] => none

/-- Decoding stage 3: the tx_nonces collection, requiring the stream to end. -/
def decodeKV3 (am : List (Nat × Nat)) (rn : List Nat) (r3 : List Nat) :
    Option KVState :=
  match r3 with
  | [] => none
  | nt :: r4 =>
    match takePairs nt r4 with
    | some (tn, r5) => if r5 = [] then some ⟨am, rn, tn⟩ else none
    | none => none

/-- Decoding stage 2: the receipt_nonces collection. -/
def decodeKV2 (am : List (Nat × Nat)) (r1 : List Nat) : Option KVState :=
  match r1 with
  | [] => none
  | nr :: r2 =>
    match takeNats nr r2 with
    | some (rn, r3) => decodeKV3 am rn r3
    | none => none

/-- `KVState::try_from_slice`: borsh deserialization of a snapshot, `none` on any
malformed input (the Rust `unwrap` turns that into a panic). -/
def decodeKV (d : List Nat) : Option KVState :=
  match d with
  | [] => none
  | na :: r0 =>
    match takePairs na r0 with
    | some (am, r1) => decodeKV2 am r1
    | none => none

/-- `CryptoHash::hash(bytes)` modelled as an injective pairing-based digest of the
byte stream (the model only relies on injectivity, the property `hash` is trusted
for). -/
def packList : List Nat → Nat
  | [] => 0
  | b :: bs => Nat.pair b (packList bs) + 1

/-- The state-root table insert at the end of `apply_chunk`: look the snapshot up
under the caller's root (`unwrap` panics when missing), apply the chunk, then store
the result under the content hash of its serialization and return that root. -/
def applyChunkTable (E : Ext) (hashB : List Nat → Nat) (shard gp : Nat)
    (tbl : Nat → Option KVState) (root : Nat)
    (receipts : List KVReceipt) (txs : List KVTx) :
    Except PanicKind ((Nat → Option KVState) × Nat × TAcc) :=
  match tbl root with
  | none => .error .missingRoot
  | some st =>
    match applyChunkCore E shard gp st receipts txs with
    | .error p => .error p
    | .ok o =>
      .ok (upd tbl (hashB (encodeKV o.st)) o.st, hashB (encodeKV o.st), o)

/-- `apply_state_part`: a non-zero part index is a no-op; otherwise the part data is
deserialized (`unwrap` panics on failure) and inserted under the CALLER-SUPPLIED
root — the root is never compared against the content hash of the data. -/
def applyStatePart (tbl : Nat → Option KVState) (root partIdx : Nat)
    (data : List Nat) : Except PanicKind (Nat → Option KVState) :=
  if partIdx ≠ 0 then .ok tbl
  else
    match decodeKV data with
    | none => .error .decodeFail
    | some st => .ok (upd tbl root st)

/-- Snapshot stored under a root in the table produced by `apply_state_part`
(`none` on a panic or an absent root). -/
def tableAt (e : Except PanicKind (Nat → Option KVState)) (r : Nat) :
    Option KVState :=
  match e with
  | .error _ => none
  | .ok t => t r

theorem takePairs_encPairs (l : List (Nat × Nat)) (rest : List Nat) :
    takePairs l.length (encPairs l ++ rest) = some (l, rest) := by
  induction l with
  | nil => rfl
  | cons p t ih =>
    obtain ⟨a, b⟩ := p
    show (match takePairs t.length (encPairs t ++ rest) with
      | some (l, r) => some ((a, b) :: l, r)
      | none => none) = some ((a, b) :: t, rest)
    rw [ih]

theorem takeNats_append (l rest : List Nat) :
    takeNats l.length (l ++ rest) = some (l, rest) := by
  induction l with
  | nil => rfl
  | cons a t ih =>
    show (match takeNats t.length (t ++ rest) with
      | some (l, r) => some (a :: l, r)
      | none => none) = some (a :: t, rest)
    rw [ih]

/-- Borsh round-trip: decoding a serialized snapshot recovers it exactly. -/
theorem decodeKV_encodeKV (s : KVState) : decodeKV (encodeKV s) = some s := by
  obtain ⟨am, rn, tn⟩ := s
  have h3 : takePairs tn.length (encPairs tn) = some (tn, []) := by
    have h := takePairs_encPairs tn []
    rw [List.append_nil] at h
    exact h
  show (match takePairs am.length
      (encPairs am ++ (rn.length :: (rn ++ (tn.length :: encPairs tn)))) with
    | some (am2, r1) => decodeKV2 am2 r1
    | none => none) = some ⟨am, rn, tn⟩
  rw [takePairs_encPairs am (rn.length :: (rn ++ (tn.length :: encPairs tn)))]
  show (match takeNats rn.length (rn ++ (tn.length :: encPairs tn)) with
    | some (rn2, r3) => decodeKV3 am rn2 r3
    | none => none) = some ⟨am, rn, tn⟩
  rw [takeNats_append rn (tn.length :: encPairs tn)]
  show (match takePairs tn.length (encPairs tn) with
    | some (tn2, r5) => if r5 = [] then some ⟨am, rn, tn2⟩ else none
    | none => none) = some (⟨am, rn, tn⟩ : KVState)
  rw [h3]
  show (if ([] : List Nat) = [] then some (⟨am, rn, tn⟩ : KVState) else none) =
    some (⟨am, rn, tn⟩ : KVState)
  rw [if_pos rfl]

/-- Serialization is injective (a consequence of the round-trip). -/
theorem encodeKV_inj (s1 s2 : KVState) (h : encodeKV s1 = encodeKV s2) :
    s1 = s2 := by
  have h1 := decodeKV_encodeKV s1
  rw [h, decodeKV_encodeKV s2] at h1
  injection h1 with h1
  exact h1.symm

/-- The pairing-based digest is injective. -/
theorem packList_inj (l1 l2 : List Nat) (h : packList l1 = packList l2) :
    l1 = l2 := by
  induction l1 generalizing l2 with
  | nil =>
    cases l2 with
    | nil => rfl
    | cons b bs =>
      simp only [packList] at h
      exact absurd h (by omega)
  | cons a as ih =>
    cases l2 with
    | nil =>
      simp only [packList] at h
      exact absurd h (by omega)
    | cons b bs =>
      simp only [packList] at h
      have h2 := Nat.add_right_cancel h
      have h3 := congrArg Nat.unpair h2
      rw [Nat.unpair_pair, Nat.unpair_pair] at h3
      simp only [Prod.mk.injEq] at h3
      rw [h3.1, ih bs h3.2]

/-- C8 amended: `apply_chunk`'s final insert keeps the root table append-only
PROVIDED the table is content-addressed (every stored root is the content hash of
its snapshot's serialization) and the hash is injective: the returned root is the
content hash of the serialized result, the result is stored under it, every
existing entry is preserved, and the table stays content-addressed.
`apply_state_part`, by contrast, stores caller-supplied data under a
caller-supplied root without any validation and can overwrite an existing root
with different content (see the counterexample), so the unconditional table-wide
invariant of the claim fails. -/
theorem c8_append_only (E : Ext) (hashB : List Nat → Nat) (shard gp : Nat)
    (tbl : Nat → Option KVState) (root : Nat) (receipts : List KVReceipt)
    (txs : List KVTx) (tbl2 : Nat → Option KVState) (nr : Nat) (out : TAcc)
    (hca : ∀ r s, tbl r = some s → r = hashB (encodeKV s))
    (hinj : ∀ d1 d2, hashB d1 = hashB d2 → d1 = d2)
    (hA : applyChunkTable E hashB shard gp tbl root receipts txs =
      .ok (tbl2, nr, out)) :
    nr = hashB (encodeKV out.st) ∧
    tbl2 nr = some out.st ∧
    (∀ r s, tbl r = some s → tbl2 r = some s) ∧
    (∀ r s, tbl2 r = some s → r = hashB (encodeKV s)) := by
  unfold applyChunkTable at hA
  cases hroot : tbl root with
  | none =>
    rw [hroot] at hA
    have hA2 : (Except.error PanicKind.missingRoot :
      Except PanicKind ((Nat → Option KVState) × Nat × TAcc)) =
      .ok (tbl2, nr, out) := hA
    exact absurd hA2 (by simp)
  | some st =>
    rw [hroot] at hA
    have hA2 : (match applyChunkCore E shard gp st receipts txs with
      | .error p =>
        (Except.error p : Except PanicKind ((Nat → Option KVState) × Nat × TAcc))
      | .ok o =>
        .ok (upd tbl (hashB (encodeKV o.st)) o.st, hashB (encodeKV o.st), o)) =
      .ok (tbl2, nr, out) := hA
    cases hc : applyChunkCore E shard gp st receipts txs with
    | error p =>
      rw [hc] at hA2
      have hA3 : (Except.error p :
        Except PanicKind ((Nat → Option KVState) × Nat × TAcc)) =
        .ok (tbl2, nr, out) := hA2
      exact absurd hA3 (by simp)
    | ok o =>
      rw [hc] at hA2
      have hA3 : (Except.ok
        (upd tbl (hashB (encodeKV o.st)) o.st, hashB (encodeKV o.st), o) :
        Except PanicKind ((Nat → Option KVState) × Nat × TAcc)) =
        .ok (tbl2, nr, out) := hA2
      simp only [Except.ok.injEq, Prod.mk.injEq] at hA3
      obtain ⟨htbl2, hnr, hout⟩ := hA3
      subst hout
      subst htbl2
      subst hnr
      refine ⟨rfl, upd_self tbl _ _, ?_, ?_⟩
      · intro r s hr
        by_cases hx : r = hashB (encodeKV o.st)
        · have hr2 := hca r s hr
          have he : encodeKV s = encodeKV o.st :=
            hinj _ _ (by rw [← hr2]; exact hx)
          have hs : s = o.st := encodeKV_inj s o.st he
          rw [hx, hs]
          exact upd_self tbl _ _
        · rw [upd_ne tbl _ _ r hx]
          exact hr
      · intro r s hr
        by_cases hx : r = hashB (encodeKV o.st)
        · rw [hx] at hr ⊢
          rw [upd_self] at hr
          injection hr with hr
          rw [← hr]
        · rw [upd_ne tbl _ _ r hx] at hr
          exact hca r s hr

/-- C8 counterexample: `apply_state_part` with part index 0 and an existing root
overwrites the snapshot stored under that root with different content — the table
held the empty snapshot under its content hash, and afterwards the same root holds
a different snapshot — refuting the claim that no operation changes the snapshot
stored under a present root. -/
theorem c8_counterexample :
    upd (fun _ => none) (packList (encodeKV ⟨[], [], []⟩))
      (⟨[], [], []⟩ : KVState)
      (packList (encodeKV ⟨[], [], []⟩)) = some ⟨[], [], []⟩ ∧
    tableAt (applyStatePart
      (upd (fun _ => none) (packList (encodeKV ⟨[], [], []⟩))
        (⟨[], [], []⟩ : KVState))
      (packList (encodeKV ⟨[], [], []⟩)) 0 (encodeKV ⟨[(1, 5)], [], []⟩))
      (packList (encodeKV ⟨[], [], []⟩)) = some ⟨[(1, 5)], [], []⟩ ∧
    (⟨[(1, 5)], [], []⟩ : KVState) ≠ ⟨[], [], []⟩ :=
  ⟨rfl, rfl, by decide⟩

/-- Witness for c8_append_only: applying the alice-to-bob chunk on a singleton
content-addressed table with the pairing digest keeps the old root's snapshot
intact. -/
theorem c8_append_only_witness :
    upd (upd (fun _ => none) (packList (encodeKV ⟨[], [], []⟩))
        (⟨[], [], []⟩ : KVState))
      (packList (encodeKV ⟨[], [], [(2, 1)]⟩)) (⟨[], [], [(2, 1)]⟩ : KVState)
      (packList (encodeKV ⟨[], [], []⟩)) = some ⟨[], [], []⟩ := by
  have h := c8_append_only cE packList 0 0
    (upd (fun _ => none) (packList (encodeKV ⟨[], [], []⟩))
      (⟨[], [], []⟩ : KVState))
    (packList (encodeKV ⟨[], [], []⟩)) [] [⟨9, 1, 2, 1, [.transfer 5]⟩]
    (upd (upd (fun _ => none) (packList (encodeKV ⟨[], [], []⟩))
        (⟨[], [], []⟩ : KVState))
      (packList (encodeKV ⟨[], [], [(2, 1)]⟩)) (⟨[], [], [(2, 1)]⟩ : KVState))
    (packList (encodeKV ⟨[], [], [(2, 1)]⟩))
    ⟨⟨[], [], [(2, 1)]⟩, [], []⟩
    (fun r s hr => by
      by_cases hx : r = packList (encodeKV ⟨[], [], []⟩)
      · rw [hx] at hr ⊢
        rw [upd_self] at hr
        injection hr with hr
        rw [← hr]
      · rw [upd_ne _ _ _ _ hx] at hr
        exact absurd hr (by simp))
    packList_inj rfl
  exact h.2.2.1 (packList (encodeKV ⟨[], [], []⟩)) ⟨[], [], []⟩
    (upd_self _ _ _)

end KVR
